import Mathlib

/-!
Verification of the OS-Resource-Scheduling-Simulator engine: a shallow
embedding of the memory page-replacement algorithms (LRU and the ARB/Clock
second-chance variant), the disk scheduling algorithms (LOOK and C-SCAN),
and the input validators, together with proofs of the specification's
claims about them.

Sources embedded:
- `src/unnamed/part_004` (clock variant, lines 314-427, and LRU, lines 22-95)
- `src/client/src/lib/algorithms/disk.ts`
- `src/client/src/lib/validators.ts`

JavaScript numbers are modelled as `Int` (frame contents, cylinder values,
with `-1` as the empty-frame sentinel); validated page references are
non-negative and modelled as `Nat`.  The JS `while` loop of the clock
victim sweep is modelled with explicit fuel `2*frameCount + 2`, which is
provably enough because the source forces an eviction after two full
revolutions of the pointer.
-/

namespace OSSim

/-- First index of `x` in `l`, mirroring the JS `Array.prototype.indexOf`
check `indexOf(x) !== -1` (here: `≠ none`). -/
def jsIndexOf (l : List Int) (x : Int) : Option Nat :=
  match l with
  | [] => none
  | a :: rest => if a = x then some 0 else (jsIndexOf rest x).map (· + 1)

/-- One step of a memory simulation, mirroring the `MemoryStep` interface of
`src/unnamed/part_004`.  Fields that the source marks optional (`?`) are
`Option`-typed and default to `none`. -/
structure MemoryStep where
  reference : Int
  frames : List Int
  framesAfter : List Int
  isFault : Bool
  refBits : Option (List Nat) := none
  refBitsAfter : Option (List Nat) := none
  replacedFrame : Option Int := none
  resetBits : Option Bool := none
  pointerPosition : Option Nat := none
  pointerPositionAfter : Option Nat := none
  orderOfUse : Option (List Int) := none

/-- Result of a memory simulation, mirroring the `MemoryResult` interface. -/
structure MemoryResult where
  steps : List MemoryStep
  faults : Nat
  hits : Nat

/-- Mutable state of the LRU loop: the frame table and the usage-order list
(least-recently-used frame index first). -/
structure LRUState where
  frames : List Int
  orderOfUse : List Int

/-- One iteration of the `simulateLRU` loop (lines 37-92 of the source).
The final `orderOfUse = []` arm mirrors the degenerate JS behaviour of
`orderOfUse[0]` being `undefined` on an empty list (array untouched); it is
unreachable whenever `frameCount ≥ 1`, which the invariant proofs below
establish. -/
def lruStep (s : LRUState) (page : Nat) : LRUState × MemoryStep :=
  match jsIndexOf s.frames (page : Int) with
  | some frameIndex =>
      -- page hit: move the frame to the most-recently-used end
      let order' := (s.orderOfUse.erase (frameIndex : Int)) ++ [(frameIndex : Int)]
      (⟨s.frames, order'⟩,
       { reference := (page : Int), frames := s.frames, framesAfter := s.frames,
         isFault := false, orderOfUse := some order' })
  | none =>
      match jsIndexOf s.frames (-1) with
      | some emptyIndex =>
          -- page fault, empty frame available: fill the first empty frame
          let frames' := s.frames.set emptyIndex (page : Int)
          let order' := s.orderOfUse ++ [(emptyIndex : Int)]
          (⟨frames', order'⟩,
           { reference := (page : Int), frames := s.frames, framesAfter := frames',
             isFault := true, replacedFrame := some (emptyIndex : Int),
             orderOfUse := some order' })
      | none =>
          match s.orderOfUse with
          | replaceIdx :: restOrder =>
              -- page fault, no empty frame: evict the least-recently-used frame
              let frames' := s.frames.set replaceIdx.toNat (page : Int)
              let order' := restOrder ++ [replaceIdx]
              (⟨frames', order'⟩,
               { reference := (page : Int), frames := s.frames, framesAfter := frames',
                 isFault := true, replacedFrame := some replaceIdx,
                 orderOfUse := some order' })
          | [] =>
              (s, { reference := (page : Int), frames := s.frames,
                    framesAfter := s.frames, isFault := true,
                    orderOfUse := some [] })

/-- The `simulateLRU` loop over the whole reference string, returning the
emitted steps together with the fault and hit counters. -/
def lruRunAux : LRUState → List Nat → List MemoryStep × Nat × Nat
  | _, [] => ([], 0, 0)
  | s, page :: rest =>
      let st := (lruStep s page).2
      let r := lruRunAux (lruStep s page).1 rest
      (st :: r.1, (if st.isFault then r.2.1 + 1 else r.2.1),
       (if st.isFault then r.2.2 else r.2.2 + 1))

/-- Initial LRU state: `frameCount` frames filled with the `-1` sentinel and
an empty usage-order list. -/
def lruInit (frameCount : Nat) : LRUState :=
  ⟨List.replicate frameCount (-1), []⟩

/-- `simulateLRU` from `src/unnamed/part_004` lines 22-95. -/
def simulateLRU (frameCount : Nat) (refString : List Nat) : MemoryResult :=
  ⟨(lruRunAux (lruInit frameCount) refString).1,
   (lruRunAux (lruInit frameCount) refString).2.1,
   (lruRunAux (lruInit frameCount) refString).2.2⟩

/-- The pre-state of every LRU step of a run (used to state properties about
the internal order list at the moment a victim is chosen). -/
def lruStates : LRUState → List Nat → List LRUState
  | _, [] => []
  | s, page :: rest => s :: lruStates (lruStep s page).1 rest

/-- Outcome of one clock victim sweep: the updated reference bits, the
victim frame, the pointer after the sweep, whether a full reset revolution
was flagged, and whether the defensive `loopCount > 1` forced eviction
fired. -/
structure SweepOut where
  bits : List Nat
  victim : Nat
  pointerAfter : Nat
  resetBits : Bool
  forced : Bool

/-- The `while (!foundVictim)` clock sweep of `simulateARB`
(`src/unnamed/part_004` lines 366-418), with explicit fuel.  Each fuel unit
is one probe of `refBits[pointer]`.  A probe of a bit that is `0` evicts
that frame; otherwise the bit is cleared and the pointer advances; when the
pointer returns to `startP` the first time, the step is flagged as a reset
revolution; the second time, an eviction is forced (the source's defensive
`loopCount > 1` branch). -/
def clockSweepAux (n startP : Nat) : Nat → List Nat → Nat → Nat → Bool → Option SweepOut
  | 0, _, _, _, _ => none
  | fuel + 1, bits, p, loopCount, resetFlag =>
      -- probe `refBits[pointer] === 0`: out-of-range access is JS `undefined`,
      -- which is not `0`, hence the default value `1` for the probe
      if bits.getD p 1 = 0 then
        some ⟨bits.set p 1, p, (p + 1) % n, resetFlag, false⟩
      else
        if (p + 1) % n = startP then
          if loopCount + 1 = 1 then
            clockSweepAux n startP fuel (bits.set p 0) ((p + 1) % n) (loopCount + 1) true
          else
            some ⟨(bits.set p 0).set ((p + 1) % n) 1, (p + 1) % n, ((p + 1) % n + 1) % n,
                  resetFlag, true⟩
        else
          clockSweepAux n startP fuel (bits.set p 0) ((p + 1) % n) loopCount resetFlag

/-- The clock sweep as invoked by `simulateARB`: it starts at the current
pointer with `loopCount = 0`, and `2*n + 2` fuel is enough because the
forced-eviction branch exits after at most two revolutions. -/
def clockSweep (n : Nat) (bits : List Nat) (p : Nat) : Option SweepOut :=
  clockSweepAux n p (2 * n + 2) bits p 0 false

/-- Mutable state of the ARB/Clock loop. -/
structure ARBState where
  frames : List Int
  refBits : List Nat
  pointer : Nat
  framesFilled : Nat

/-- One iteration of the `simulateARB` loop (`src/unnamed/part_004` lines
329-424, the clock/second-chance variant chosen by the specification).  The
`none` outcomes mark situations the source reaches only outside validated
workloads (sweep fuel exhaustion; `framesFilled < frameCount` without an
empty slot); the theorems below prove they never occur for
`frameCount ≥ 1`. -/
def arbStep (frameCount : Nat) (s : ARBState) (page : Nat) : Option (ARBState × MemoryStep) :=
  match jsIndexOf s.frames (page : Int) with
  | some frameIndex =>
      -- page hit: set the reference bit
      let refBits' := s.refBits.set frameIndex 1
      some (⟨s.frames, refBits', s.pointer, s.framesFilled⟩,
        { reference := (page : Int), frames := s.frames, refBits := some s.refBits,
          framesAfter := s.frames, refBitsAfter := some refBits',
          isFault := false, resetBits := some false,
          pointerPosition := some s.pointer, pointerPositionAfter := some s.pointer })
  | none =>
      if s.framesFilled < frameCount then
        match jsIndexOf s.frames (-1) with
        | some emptyIndex =>
            -- page fault, empty frame available
            let frames' := s.frames.set emptyIndex (page : Int)
            let refBits' := s.refBits.set emptyIndex 1
            let pointer' := (emptyIndex + 1) % frameCount
            some (⟨frames', refBits', pointer', s.framesFilled + 1⟩,
              { reference := (page : Int), frames := s.frames, refBits := some s.refBits,
                framesAfter := frames', refBitsAfter := some refBits',
                isFault := true, replacedFrame := some (emptyIndex : Int),
                resetBits := some false,
                pointerPosition := some s.pointer, pointerPositionAfter := some pointer' })
        | none => none
      else
        -- page fault, all frames filled: run the clock sweep
        (clockSweep frameCount s.refBits s.pointer).map fun r =>
          let frames' := s.frames.set r.victim (page : Int)
          (⟨frames', r.bits, r.pointerAfter, s.framesFilled⟩,
            { reference := (page : Int), frames := s.frames, refBits := some s.refBits,
              framesAfter := frames', refBitsAfter := some r.bits,
              isFault := true, replacedFrame := some (r.victim : Int),
              resetBits := some r.resetBits,
              pointerPosition := some s.pointer, pointerPositionAfter := some r.pointerAfter })

/-- The `simulateARB` loop over the whole reference string. -/
def arbRunAux (frameCount : Nat) : ARBState → List Nat → Option (List MemoryStep × Nat × Nat)
  | _, [] => some ([], 0, 0)
  | s, page :: rest =>
      match arbStep frameCount s page with
      | none => none
      | some (s', st) =>
          match arbRunAux frameCount s' rest with
          | none => none
          | some r =>
              some (st :: r.1, (if st.isFault then r.2.1 + 1 else r.2.1),
                    (if st.isFault then r.2.2 else r.2.2 + 1))

/-- Initial ARB state. -/
def arbInit (frameCount : Nat) : ARBState :=
  ⟨List.replicate frameCount (-1), List.replicate frameCount 0, 0, 0⟩

/-- `simulateARB` from `src/unnamed/part_004` lines 314-427 (the clock /
second-chance variant). -/
def simulateARB (frameCount : Nat) (refString : List Nat) : Option MemoryResult :=
  (arbRunAux frameCount (arbInit frameCount) refString).map fun r =>
    ⟨r.1, r.2.1, r.2.2⟩

/-- Result of a disk simulation, mirroring the `DiskResult` interface of
`disk.ts` (the `path` field is the `sequence` zipped with step ordinals and
carries no extra information, so it is not modelled). -/
structure DiskResult where
  sequence : List Int
  seekDistance : Int

/-- Accumulator threaded through the disk serving loops: the visited
sequence, the accumulated seek distance and the current head position. -/
structure DiskAcc where
  seq : List Int
  seek : Int
  cur : Int

/-- One serving loop of `disk.ts`: for each request in order, add
`abs(req - currentPosition)` to the seek distance, append the request to
the sequence and move the head there. -/
def serveReqs (a : DiskAcc) (reqs : List Int) : DiskAcc :=
  reqs.foldl (fun a req => ⟨a.seq ++ [req], a.seek + |req - a.cur|, req⟩) a

/-- Ascending sort, modelling the JS `[...requests].sort((a, b) => a - b)`. -/
def sortAsc (l : List Int) : List Int :=
  List.insertionSort (· ≤ ·) l

/-- The requests strictly above `start`, in ascending order (the `higher`
local of both disk algorithms). -/
def higherOf (start : Int) (requests : List Int) : List Int :=
  (sortAsc requests).filter (fun r => start < r)

/-- The requests strictly below `start`, in ascending order (the `lower`
local of both disk algorithms). -/
def lowerOf (start : Int) (requests : List Int) : List Int :=
  (sortAsc requests).filter (fun r => r < start)

/-- `simulateLOOK` from `disk.ts` lines 9-84.  The source guards each
serving loop with `length > 0`, which is a no-op for an empty loop and is
therefore not reproduced.  Requests equal to `start` are filtered into the
unused `atStart` group and never served. -/
def simulateLOOK (cylinders start : Int) (requests : List Int)
    (initialDirection : Bool) : DiskResult :=
  let higher := higherOf start requests
  let lower := lowerOf start requests
  let init : DiskAcc := ⟨[start], 0, start⟩
  let final :=
    if initialDirection then
      serveReqs (serveReqs init higher) lower.reverse
    else
      serveReqs (serveReqs init lower.reverse) higher
  ⟨final.seq, final.seek⟩

/-- The upward C-SCAN tail (`disk.ts` lines 121-142): when lower requests
remain, move to the top boundary `c - 1` if not already there (counted in
the seek distance), jump to cylinder `0` for free, then serve the lower
requests ascending.  `A` is the accumulator after the higher requests were
served. -/
def cscanUp (c : Int) (A : DiskAcc) (lower : List Int) : DiskAcc :=
  if lower.isEmpty then A
  else if A.cur < c - 1 then
    serveReqs ⟨(A.seq ++ [c - 1]) ++ [0], A.seek + |c - 1 - A.cur|, 0⟩ lower
  else
    serveReqs ⟨A.seq ++ [0], A.seek, 0⟩ lower

/-- The downward C-SCAN tail (`disk.ts` lines 154-176): when higher requests
remain, move to cylinder `0` if not already there (the source adds the bare
`currentPosition` to the seek distance), jump to the top boundary for free,
then serve the higher requests descending. -/
def cscanDown (c : Int) (A : DiskAcc) (higher : List Int) : DiskAcc :=
  if higher.isEmpty then A
  else if 0 < A.cur then
    serveReqs ⟨(A.seq ++ [0]) ++ [c - 1], A.seek + A.cur, c - 1⟩ higher.reverse
  else
    serveReqs ⟨A.seq ++ [c - 1], A.seek, c - 1⟩ higher.reverse

/-- `simulateCSCAN` from `disk.ts` lines 88-180: serve the requests on the
initial-direction side in sweep order, then hand the accumulator to the
boundary-and-wrap tail for the remaining side. -/
def simulateCSCAN (cylinders start : Int) (requests : List Int)
    (initialDirection : Bool) : DiskResult :=
  let final :=
    if initialDirection then
      cscanUp cylinders (serveReqs ⟨[start], 0, start⟩ (higherOf start requests))
        (lowerOf start requests)
    else
      cscanDown cylinders (serveReqs ⟨[start], 0, start⟩ ((lowerOf start requests).reverse))
        (higherOf start requests)
  ⟨final.seq, final.seek⟩

/-- Sum of absolute differences of consecutive list elements. -/
def pathSum : List Int → Int
  | [] => 0
  | [_] => 0
  | x :: y :: rest => |y - x| + pathSum (y :: rest)

/-- Numeric value of the digit characters `cs` (base 10). -/
def digitsToNat (cs : List Char) : Nat :=
  cs.foldl (fun a c => a * 10 + (c.toNat - 48)) 0

/-- Leading and trailing whitespace removed, modelling `String.trim`. -/
def trimChars (cs : List Char) : List Char :=
  ((cs.dropWhile Char.isWhitespace).reverse.dropWhile Char.isWhitespace).reverse

/-- JS `parseInt` (base 10, decimal form): optional sign followed by the
longest digit prefix, `NaN` (`none`) when no digits follow; trailing
non-digit characters are ignored.  The hexadecimal `0x` form is not
modelled. -/
def parseIntFrom (cs : List Char) : Option Int :=
  match cs with
  | '-' :: rest =>
      if (rest.takeWhile Char.isDigit).isEmpty then none
      else some (-(digitsToNat (rest.takeWhile Char.isDigit) : Int))
  | '+' :: rest =>
      if (rest.takeWhile Char.isDigit).isEmpty then none
      else some ((digitsToNat (rest.takeWhile Char.isDigit) : Int))
  | _ =>
      if (cs.takeWhile Char.isDigit).isEmpty then none
      else some ((digitsToNat (cs.takeWhile Char.isDigit) : Int))

/-- `parseInt` on a character list, skipping leading whitespace as JS does. -/
def parseIntChars (cs : List Char) : Option Int :=
  parseIntFrom (cs.dropWhile Char.isWhitespace)

/-- `parseInt` on a string. -/
def jsParseInt (s : String) : Option Int :=
  parseIntChars s.data

/-- A decimal numeral as accepted by JS `Number` on a token: the value is
`(-1)^neg * units / 10^scale`.  Keeping the parse syntactic (instead of a
`Rat`) keeps the validator computable by the kernel; `JsNum.toRat` gives
the numeric value. -/
structure JsNum where
  neg : Bool
  units : Nat
  scale : Nat

/-- Numeric value of a parsed token. -/
def JsNum.toRat (j : JsNum) : ℚ :=
  (cond j.neg (-(j.units : ℚ)) (j.units : ℚ)) / (10 : ℚ) ^ j.scale

/-- Whether the parsed value is negative, i.e. `toRat < 0`: the sign is set
and the magnitude is non-zero (so `-0` is not negative, as in JS). -/
def JsNum.isNegVal (j : JsNum) : Bool :=
  j.neg && !(j.units == 0)

/-- Unsigned part of a JS decimal numeral: digits, optionally followed by
`.` and further digits, with at least one digit overall. -/
def parseNumMag (cs : List Char) : Option (Nat × Nat) :=
  let intPart := cs.takeWhile Char.isDigit
  match cs.dropWhile Char.isDigit with
  | [] => if intPart.isEmpty then none else some (digitsToNat intPart, 0)
  | '.' :: frac =>
      if frac.all Char.isDigit && !(intPart.isEmpty && frac.isEmpty) then
        some (digitsToNat intPart * 10 ^ frac.length + digitsToNat frac, frac.length)
      else none
  | _ => none

/-- JS `Number` on a whitespace-free, non-empty token, restricted to signed
decimal numerals (the hexadecimal, exponent and `Infinity` forms are not
modelled); `none` models `NaN`. -/
def jsNumber (cs : List Char) : Option JsNum :=
  match cs with
  | '-' :: rest => (parseNumMag rest).map fun m => ⟨true, m.1, m.2⟩
  | '+' :: rest => (parseNumMag rest).map fun m => ⟨false, m.1, m.2⟩
  | _ => (parseNumMag cs).map fun m => ⟨false, m.1, m.2⟩

/-- Split at every character satisfying `p`, keeping empty pieces, as the
JS `String.prototype.split` does. -/
def splitOn (p : Char → Bool) : List Char → List (List Char)
  | [] => [[]]
  | c :: rest =>
      let r := splitOn p rest
      if p c then [] :: r else (c :: r.headD []) :: r.tail

/-- Tokens of a trimmed reference string: splitting on `/\s+/` yields the
maximal whitespace-free runs, i.e. the non-empty pieces of a plain
whitespace split. -/
def tokensWs (cs : List Char) : List (List Char) :=
  (splitOn Char.isWhitespace cs).filter (fun t => !t.isEmpty)

/-- Result record of `validateMemoryInput`. -/
structure MemValidation where
  valid : Bool
  message : String
  frameCount : Option Int := none
  refArray : Option (List JsNum) := none

/-- `validateMemoryInput` from `validators.ts` lines 1-31.  The JS
`!frameCount || frameCount <= 0` check rejects `NaN` (the `none` arm) and
every value `≤ 0`; the reference string is trimmed, split on whitespace,
parsed with `Number`, and rejected if any token is `NaN` or negative. -/
def validateMemoryInput (frames referenceString : String) : MemValidation :=
  match jsParseInt frames with
  | none => ⟨false, "Number of frames must be a positive integer", none, none⟩
  | some frameCount =>
      if frameCount ≤ 0 then
        ⟨false, "Number of frames must be a positive integer", none, none⟩
      else
        let refChars := trimChars referenceString.data
        if refChars.isEmpty then
          ⟨false, "Reference string is required", none, none⟩
        else
          let parsed := (tokensWs refChars).map jsNumber
          if parsed.any Option.isNone then
            ⟨false, "Reference string must contain only numbers separated by spaces",
             none, none⟩
          else
            let refArray := parsed.map (fun o => o.getD ⟨false, 0, 0⟩)
            if refArray.any JsNum.isNegVal then
              ⟨false, "Reference string must contain non-negative integers", none, none⟩
            else
              ⟨true, "", some frameCount, some refArray⟩

/-- Result record of `validateDiskInput`. -/
structure DiskValidation where
  valid : Bool
  message : String
  cylinders : Option Int := none
  start : Option Int := none
  requestArray : Option (List Int) := none

/-- `validateDiskInput` from `validators.ts` lines 33-74: positive cylinder
count, non-negative head position strictly below it, then a non-empty
comma-separated request queue whose entries are each trimmed, parsed with
`parseInt`, and required to lie in `[0, cylinders - 1]`. -/
def validateDiskInput (cylinders headPosition requestQueue : String) : DiskValidation :=
  match jsParseInt cylinders with
  | none => ⟨false, "Total cylinders must be a positive integer", none, none, none⟩
  | some cylindersCount =>
      if cylindersCount ≤ 0 then
        ⟨false, "Total cylinders must be a positive integer", none, none, none⟩
      else
        match jsParseInt headPosition with
        | none => ⟨false, "Head position must be a non-negative integer", none, none, none⟩
        | some start =>
            if start < 0 then
              ⟨false, "Head position must be a non-negative integer", none, none, none⟩
            else if cylindersCount ≤ start then
              ⟨false, "Head position must be less than total cylinders (0-"
                        ++ toString (cylindersCount - 1) ++ ")", none, none, none⟩
            else
              let reqChars := trimChars requestQueue.data
              if reqChars.isEmpty then
                ⟨false, "Request queue is required", none, none, none⟩
              else
                let parsed := (splitOn (· == ',') reqChars).map parseIntChars
                if parsed.any Option.isNone then
                  ⟨false, "Request queue must contain only numbers separated by commas",
                   none, none, none⟩
                else
                  let requestArray := parsed.map (fun o => o.getD 0)
                  if requestArray.any (fun r => r < 0 || cylindersCount ≤ r) then
                    ⟨false, "Request queue must contain integers between 0 and "
                              ++ toString (cylindersCount - 1), none, none, none⟩
                  else
                    ⟨true, "", some cylindersCount, some start, some requestArray⟩

/-! ### Generic list helpers -/

theorem getD_set_self {l : List Nat} {i : Nat} (v d : Nat) (h : i < l.length) :
    (l.set i v).getD i d = v := by
  simp [List.getD, List.getElem?_set_self, h]

theorem getD_set_ne {l : List Nat} {i j : Nat} (v d : Nat) (h : i ≠ j) :
    (l.set i v).getD j d = l.getD j d := by
  simp [List.getD, List.getElem?_set_ne h]

theorem getD_set_self_int {l : List Int} {i : Nat} (v d : Int) (h : i < l.length) :
    (l.set i v).getD i d = v := by
  simp [List.getD, List.getElem?_set_self, h]

theorem getD_set_ne_int {l : List Int} {i j : Nat} (v d : Int) (h : i ≠ j) :
    (l.set i v).getD j d = l.getD j d := by
  simp [List.getD, List.getElem?_set_ne h]

theorem mem_iff_getD {l : List Int} {x : Int} : x ∈ l ↔ ∃ j, j < l.length ∧ l.getD j 0 = x := by
  constructor
  · intro h
    rcases List.mem_iff_getElem.mp h with ⟨j, hj, hx⟩
    exact ⟨j, hj, by simp [List.getD, List.getElem?_eq_getElem hj, hx]⟩
  · rintro ⟨j, hj, hx⟩
    rw [List.getD_eq_getElem l 0 hj] at hx
    exact hx ▸ List.getElem_mem hj

theorem add_mod_ne_self {p j n : Nat} (h0 : 0 < j) (hj : j < n) (hp : p < n) :
    (p + j) % n ≠ p := by
  intro h
  rcases Nat.lt_or_ge (p + j) n with h1 | h1
  · rw [Nat.mod_eq_of_lt h1] at h; omega
  · have h2 : p + j - n < n := by omega
    have h3 : (p + j) % n = p + j - n := by
      rw [Nat.mod_eq_sub_mod h1, Nat.mod_eq_of_lt h2]
    omega

theorem jsIndexOf_eq_some {l : List Int} {x : Int} {j : Nat} (h : jsIndexOf l x = some j) :
    j < l.length ∧ l.getD j 0 = x ∧ ∀ i, i < j → l.getD i 0 ≠ x := by
  induction l generalizing j with
  | nil => simp [jsIndexOf] at h
  | cons a rest ih =>
    by_cases hax : a = x
    · simp [jsIndexOf, hax] at h
      subst h
      exact ⟨by simp, by simp [hax], by omega⟩
    · simp [jsIndexOf, hax] at h
      obtain ⟨j', hj', rfl⟩ := h
      obtain ⟨h1, h2, h3⟩ := ih hj'
      refine ⟨by simpa using h1, by simpa using h2, ?_⟩
      intro i hi
      cases i with
      | zero => simpa using hax
      | succ i' => simpa using h3 i' (by omega)

theorem jsIndexOf_eq_none {l : List Int} {x : Int} (h : jsIndexOf l x = none) : x ∉ l := by
  induction l with
  | nil => simp
  | cons a rest ih =>
    by_cases hax : a = x
    · simp [jsIndexOf, hax] at h
    · simp [jsIndexOf, hax] at h
      simp [hax, ih h]
      exact fun hc => (hax hc.symm).elim

theorem jsIndexOf_first {l : List Int} {x : Int} {k : Nat} (hk : k < l.length)
    (hx : l.getD k 0 = x) (hmin : ∀ i, i < k → l.getD i 0 ≠ x) : jsIndexOf l x = some k := by
  induction l generalizing k with
  | nil => simp at hk
  | cons a rest ih =>
    cases k with
    | zero =>
      simp at hx
      simp [jsIndexOf, hx]
    | succ k' =>
      have ha : a ≠ x := by simpa using hmin 0 (Nat.succ_pos k')
      have := ih (k := k') (by simpa using hk) (by simpa using hx)
        (fun i hi => by simpa using hmin (i + 1) (by omega))
      simp [jsIndexOf, ha, this]

/-! ### LRU invariant and step lemmas -/

/-- Per-step frame effect: a hit leaves the frame table unchanged, while a
fault rewrites exactly the replaced frame's slot. -/
def framesEffect (st : MemoryStep) : Prop :=
  (st.isFault = false → st.framesAfter = st.frames) ∧
  (st.isFault = true → ∃ j : Nat, st.replacedFrame = some (j : Int) ∧ j < st.frames.length ∧
     st.framesAfter.getD j 0 ≠ st.frames.getD j 0 ∧
     ∀ i, i ≠ j → st.framesAfter.getD i 0 = st.frames.getD i 0)

/-- The occupied frame indices `0, …, k-1` as integers. -/
def rangeInt (k : Nat) : List Int :=
  List.map Int.ofNat (List.range k)

/-- Invariant of the LRU loop: the frame table keeps its size, the first `k`
slots are occupied and the rest hold the `-1` sentinel, and the usage-order
list is a permutation of the occupied frame indices. -/
def lruInv (fc : Nat) (s : LRUState) : Prop :=
  s.frames.length = fc ∧
  ∃ k, k ≤ fc ∧ (∀ j, j < fc → (s.frames.getD j 0 = -1 ↔ k ≤ j)) ∧
    List.Perm s.orderOfUse (rangeInt k)

theorem lruInv_init (fc : Nat) : lruInv fc (lruInit fc) := by
  refine ⟨by simp [lruInit], 0, Nat.zero_le fc, ?_, by simp [lruInit, rangeInt]⟩
  intro j hj
  simp [lruInit, List.getD, List.getElem?_replicate, hj]

theorem rangeInt_succ (k : Nat) : rangeInt (k + 1) = rangeInt k ++ [(k : Int)] := by
  simp [rangeInt, List.range_succ]

theorem mem_range_int {k : Nat} {x : Int} :
    x ∈ rangeInt k ↔ ∃ m, m < k ∧ x = (m : Int) := by
  rw [rangeInt, List.mem_map]
  constructor
  · rintro ⟨m, hm, rfl⟩
    exact ⟨m, List.mem_range.mp hm, rfl⟩
  · rintro ⟨m, hm, rfl⟩
    exact ⟨m, List.mem_range.mpr hm, rfl⟩

theorem lruStep_spec {fc : Nat} (hfc : 0 < fc) (s : LRUState) (page : Nat)
    (hinv : lruInv fc s) :
    lruInv fc (lruStep s page).1 ∧ framesEffect (lruStep s page).2 ∧
    (lruStep s page).2.frames = s.frames := by
  obtain ⟨hlen, k, hk, hpref, hperm⟩ := hinv
  cases hhit : jsIndexOf s.frames (page : Int) with
  | some frameIndex =>
    -- hit branch
    obtain ⟨hj, hjx, _⟩ := jsIndexOf_eq_some hhit
    have hjk : frameIndex < k := by
      by_contra hge
      have := (hpref frameIndex (hlen ▸ hj)).mpr (by omega)
      rw [hjx] at this; omega
    have hmem : (frameIndex : Int) ∈ s.orderOfUse :=
      hperm.mem_iff.mpr (mem_range_int.mpr ⟨frameIndex, hjk, rfl⟩)
    have hstep : lruStep s page =
        (⟨s.frames, (s.orderOfUse.erase (frameIndex : Int)) ++ [(frameIndex : Int)]⟩,
         { reference := (page : Int), frames := s.frames, framesAfter := s.frames,
           isFault := false,
           orderOfUse := some ((s.orderOfUse.erase (frameIndex : Int))
                                 ++ [(frameIndex : Int)]) }) := by
      simp [lruStep, hhit]
    rw [hstep]
    refine ⟨⟨hlen, k, hk, hpref, ?_⟩, ⟨fun _ => rfl, fun hc => absurd hc (by simp)⟩, rfl⟩
    show List.Perm (s.orderOfUse.erase (frameIndex : Int) ++ [(frameIndex : Int)]) (rangeInt k)
    exact (List.perm_append_singleton _ _).trans ((List.perm_cons_erase hmem).symm.trans hperm)
  | none =>
    have hnotin : (page : Int) ∉ s.frames := jsIndexOf_eq_none hhit
    cases hempty : jsIndexOf s.frames (-1) with
    | some emptyIndex =>
      -- fill branch
      obtain ⟨he, hex, hemin⟩ := jsIndexOf_eq_some hempty
      have hek : emptyIndex = k := by
        have h1 : k ≤ emptyIndex := (hpref emptyIndex (hlen ▸ he)).mp hex
        by_contra hne
        have h2 : k < emptyIndex := by omega
        have := hemin k (by omega)
        exact this ((hpref k (by omega)).mpr (le_refl k))
      subst hek
      have hkfc : emptyIndex < fc := hlen ▸ he
      have hstep : lruStep s page =
          (⟨s.frames.set emptyIndex (page : Int), s.orderOfUse ++ [(emptyIndex : Int)]⟩,
           { reference := (page : Int), frames := s.frames,
             framesAfter := s.frames.set emptyIndex (page : Int),
             isFault := true, replacedFrame := some (emptyIndex : Int),
             orderOfUse := some (s.orderOfUse ++ [(emptyIndex : Int)]) }) := by
        simp [lruStep, hhit, hempty]
      rw [hstep]
      refine ⟨⟨by simpa using hlen, emptyIndex + 1, by omega, ?_, ?_⟩,
              ⟨fun hc => absurd hc (by simp), fun _ => ?_⟩, rfl⟩
      · intro j hj
        show (s.frames.set emptyIndex (page : Int)).getD j 0 = -1 ↔ emptyIndex + 1 ≤ j
        by_cases hje : j = emptyIndex
        · subst hje
          rw [getD_set_self_int _ _ he]
          constructor
          · intro hc
            exact absurd hc (by omega)
          · omega
        · rw [getD_set_ne_int _ _ (fun hc => hje hc.symm)]
          rw [hpref j hj]
          omega
      · show List.Perm (s.orderOfUse ++ [(emptyIndex : Int)]) (rangeInt (emptyIndex + 1))
        rw [rangeInt_succ]
        exact hperm.append (List.Perm.refl _)
      · refine ⟨emptyIndex, rfl, show emptyIndex < s.frames.length from he, ?_, ?_⟩
        · show (s.frames.set emptyIndex (page : Int)).getD emptyIndex 0 ≠ s.frames.getD emptyIndex 0
          rw [getD_set_self_int _ _ he, hex]
          omega
        · intro i hi
          show (s.frames.set emptyIndex (page : Int)).getD i 0 = s.frames.getD i 0
          exact getD_set_ne_int _ _ (fun hc => hi hc.symm)
    | none =>
      -- evict branch: the table is full, so k = fc and the order list is non-empty
      have hfull : ∀ j, j < fc → s.frames.getD j 0 ≠ -1 := by
        intro j hj hc
        exact (jsIndexOf_eq_none hempty) (mem_iff_getD.mpr ⟨j, hlen ▸ hj, hc⟩)
      have hkfc : k = fc := by
        by_contra hne
        have hklt : k < fc := by omega
        exact hfull k hklt ((hpref k hklt).mpr (le_refl k))
      subst hkfc
      cases horder : s.orderOfUse with
      | nil =>
        exfalso
        have h0 : (0 : Int) ∈ rangeInt k :=
          mem_range_int.mpr ⟨0, hfc, rfl⟩
        have := hperm.mem_iff.mpr h0
        rw [horder] at this
        simp at this
      | cons replaceIdx restOrder =>
        have hmem : replaceIdx ∈ rangeInt k :=
          hperm.mem_iff.mp (horder ▸ List.mem_cons_self _ _)
        obtain ⟨m, hm, rfl⟩ := mem_range_int.mp hmem
        have hm' : ((m : Int)).toNat = m := by simp
        have hstep : lruStep s page =
            (⟨s.frames.set m (page : Int), restOrder ++ [(m : Int)]⟩,
             { reference := (page : Int), frames := s.frames,
               framesAfter := s.frames.set m (page : Int),
               isFault := true, replacedFrame := some ((m : Int)),
               orderOfUse := some (restOrder ++ [(m : Int)]) }) := by
          simp [lruStep, hhit, hempty, horder, hm']
        rw [hstep]
        refine ⟨⟨by simpa using hlen, k, le_refl k, ?_, ?_⟩,
                ⟨fun hc => absurd hc (by simp), fun _ => ?_⟩, rfl⟩
        · intro j hj
          show (s.frames.set m (page : Int)).getD j 0 = -1 ↔ k ≤ j
          constructor
          · intro hc
            by_cases hjm : j = m
            · subst hjm
              rw [getD_set_self_int _ _ (show j < s.frames.length by omega)] at hc
              exact absurd hc (by omega)
            · rw [getD_set_ne_int _ _ (fun hc' => hjm hc'.symm)] at hc
              exact absurd hc (hfull j hj)
          · intro hc; omega
        · show List.Perm (restOrder ++ [(m : Int)]) (rangeInt k)
          exact (List.perm_append_singleton _ _).trans (horder ▸ hperm)
        · refine ⟨m, rfl, show m < s.frames.length by omega, ?_, ?_⟩
          · show (s.frames.set m (page : Int)).getD m 0 ≠ s.frames.getD m 0
            rw [getD_set_self_int _ _ (show m < s.frames.length by omega)]
            intro hc
            exact hnotin (mem_iff_getD.mpr ⟨m, by omega, hc.symm⟩)
          · intro i hi
            show (s.frames.set m (page : Int)).getD i 0 = s.frames.getD i 0
            exact getD_set_ne_int _ _ (fun hc => hi hc.symm)

theorem lruRunAux_counts : ∀ (refs : List Nat) (s : LRUState),
    (lruRunAux s refs).2.1 + (lruRunAux s refs).2.2 = refs.length := by
  intro refs
  induction refs with
  | nil => intro s; simp [lruRunAux]
  | cons page rest ih =>
    intro s
    have hih := ih (lruStep s page).1
    simp only [lruRunAux, List.length_cons]
    cases hf : (lruStep s page).2.isFault <;> simp [hf] <;> omega

theorem lruRunAux_effect {fc : Nat} (hfc : 0 < fc) :
    ∀ (refs : List Nat) (s : LRUState), lruInv fc s →
      ∀ st ∈ (lruRunAux s refs).1, framesEffect st := by
  intro refs
  induction refs with
  | nil => intro s _; simp [lruRunAux]
  | cons page rest ih =>
    intro s hinv st hst
    obtain ⟨hinv', heff, _⟩ := lruStep_spec hfc s page hinv
    simp only [lruRunAux, List.mem_cons] at hst
    rcases hst with h | h
    · exact h ▸ heff
    · exact ih _ hinv' st h

/-! ### Disk serving-loop lemmas -/

theorem serveReqs_nil (a : DiskAcc) : serveReqs a [] = a := rfl

theorem serveReqs_cons (a : DiskAcc) (r : Int) (rs : List Int) :
    serveReqs a (r :: rs) = serveReqs ⟨a.seq ++ [r], a.seek + |r - a.cur|, r⟩ rs := rfl

theorem serveReqs_seq (rs : List Int) : ∀ a : DiskAcc, (serveReqs a rs).seq = a.seq ++ rs := by
  induction rs with
  | nil => intro a; simp [serveReqs_nil]
  | cons r rs ih =>
    intro a
    rw [serveReqs_cons, ih]
    simp

theorem getLastD_cons (x : Int) (l : List Int) (d : Int) :
    (x :: l).getLastD d = l.getLastD x := by
  cases l <;> simp [List.getLastD]

theorem getLastD_cons_cons (a b : Int) (l : List Int) (d : Int) :
    (a :: b :: l).getLastD d = (b :: l).getLastD d := by
  simp [List.getLastD]

theorem getLastD_concat (l : List Int) (x d : Int) : (l ++ [x]).getLastD d = x := by
  induction l generalizing d with
  | nil => simp [List.getLastD]
  | cons y t ih =>
    rw [List.cons_append, getLastD_cons, ih]

theorem getLastD_mem (l : List Int) (h : l ≠ []) (d : Int) : l.getLastD d ∈ l := by
  cases l with
  | nil => exact absurd rfl h
  | cons x xs =>
    rw [getLastD_cons]
    exact List.getLastD_mem_cons xs x

theorem pathSum_concat : ∀ (l : List Int) (x : Int), l ≠ [] →
    pathSum (l ++ [x]) = pathSum l + |x - l.getLastD 0| := by
  intro l
  induction l with
  | nil => intro x h; exact absurd rfl h
  | cons y t ih =>
    intro x _
    cases t with
    | nil => simp [pathSum, List.getLastD]
    | cons z t' =>
      have hih := ih x (by simp)
      calc pathSum ((y :: z :: t') ++ [x]) = |z - y| + pathSum ((z :: t') ++ [x]) := by
            simp [pathSum]
        _ = |z - y| + (pathSum (z :: t') + |x - (z :: t').getLastD 0|) := by rw [hih]
        _ = pathSum (y :: z :: t') + |x - (y :: z :: t').getLastD 0| := by
            rw [getLastD_cons_cons]
            simp [pathSum]
            ring

/-- The serving-loop invariant: the accumulator's head position is the last
visited cylinder and the seek distance lags the sequence's path sum by the
fixed wrap discount `d`. -/
def serveAligned (d : Int) (a : DiskAcc) : Prop :=
  a.seq ≠ [] ∧ a.cur = a.seq.getLastD 0 ∧ a.seek + d = pathSum a.seq

theorem serveReqs_aligned (d : Int) (rs : List Int) :
    ∀ a : DiskAcc, serveAligned d a → serveAligned d (serveReqs a rs) := by
  induction rs with
  | nil => intro a h; exact h
  | cons r rs ih =>
    intro a ⟨hne, hcur, hseek⟩
    rw [serveReqs_cons]
    refine ih _ ⟨by simp, ?_, ?_⟩
    · show r = (a.seq ++ [r]).getLastD 0
      rw [getLastD_concat]
    · show a.seek + |r - a.cur| + d = pathSum (a.seq ++ [r])
      rw [pathSum_concat _ _ hne, ← hseek, hcur]
      ring

theorem serveAligned_init (s : Int) : serveAligned 0 ⟨[s], 0, s⟩ := by
  refine ⟨by simp, by simp [List.getLastD], by simp [pathSum]⟩

/-! ### Sortedness and permutation facts about `higherOf` and `lowerOf` -/

theorem sortAsc_sorted (l : List Int) : List.Sorted (· ≤ ·) (sortAsc l) :=
  List.sorted_insertionSort _ l

theorem sortAsc_perm (l : List Int) : List.Perm (sortAsc l) l :=
  List.perm_insertionSort _ l

theorem higherOf_sorted (s : Int) (reqs : List Int) :
    List.Sorted (· ≤ ·) (higherOf s reqs) :=
  List.Pairwise.filter _ (sortAsc_sorted reqs)

theorem lowerOf_sorted (s : Int) (reqs : List Int) :
    List.Sorted (· ≤ ·) (lowerOf s reqs) :=
  List.Pairwise.filter _ (sortAsc_sorted reqs)

theorem higherOf_perm (s : Int) (reqs : List Int) :
    List.Perm (higherOf s reqs) (reqs.filter (fun r => s < r)) :=
  (sortAsc_perm reqs).filter _

theorem lowerOf_perm (s : Int) (reqs : List Int) :
    List.Perm (lowerOf s reqs) (reqs.filter (fun r => r < s)) :=
  (sortAsc_perm reqs).filter _

theorem mem_higherOf {s x : Int} {reqs : List Int} (h : x ∈ higherOf s reqs) :
    x ∈ reqs ∧ s < x := by
  have := (higherOf_perm s reqs).mem_iff.mp h
  rw [List.mem_filter] at this
  exact ⟨this.1, by simpa using this.2⟩

theorem mem_lowerOf {s x : Int} {reqs : List Int} (h : x ∈ lowerOf s reqs) :
    x ∈ reqs ∧ x < s := by
  have := (lowerOf_perm s reqs).mem_iff.mp h
  rw [List.mem_filter] at this
  exact ⟨this.1, by simpa using this.2⟩

theorem lowerOf_ne_nil {s r : Int} {reqs : List Int} (hr : r ∈ reqs) (hlt : r < s) :
    lowerOf s reqs ≠ [] := by
  intro hnil
  have : r ∈ lowerOf s reqs := by
    apply (lowerOf_perm s reqs).mem_iff.mpr
    rw [List.mem_filter]
    exact ⟨hr, by simpa using hlt⟩
  rw [hnil] at this
  simp at this

theorem higherOf_ne_nil {s r : Int} {reqs : List Int} (hr : r ∈ reqs) (hlt : s < r) :
    higherOf s reqs ≠ [] := by
  intro hnil
  have : r ∈ higherOf s reqs := by
    apply (higherOf_perm s reqs).mem_iff.mpr
    rw [List.mem_filter]
    exact ⟨hr, by simpa using hlt⟩
  rw [hnil] at this
  simp at this

/-! ### Sequence and seek-distance characterizations of the disk algorithms -/

theorem simulateLOOK_seq (c s : Int) (reqs : List Int) (dir : Bool) :
    (simulateLOOK c s reqs dir).sequence =
      if dir then s :: (higherOf s reqs ++ (lowerOf s reqs).reverse)
      else s :: ((lowerOf s reqs).reverse ++ higherOf s reqs) := by
  cases dir <;> simp [simulateLOOK, serveReqs_seq]

theorem simulateLOOK_seek (c s : Int) (reqs : List Int) (dir : Bool) :
    (simulateLOOK c s reqs dir).seekDistance =
      pathSum (simulateLOOK c s reqs dir).sequence := by
  cases dir with
  | false =>
    have h := serveReqs_aligned 0 (higherOf s reqs) _
      (serveReqs_aligned 0 (lowerOf s reqs).reverse ⟨[s], 0, s⟩ (serveAligned_init s))
    simp only [simulateLOOK]
    obtain ⟨-, -, hseek⟩ := h
    simpa using hseek
  | true =>
    have h := serveReqs_aligned 0 (lowerOf s reqs).reverse _
      (serveReqs_aligned 0 (higherOf s reqs) ⟨[s], 0, s⟩ (serveAligned_init s))
    simp only [simulateLOOK]
    obtain ⟨-, -, hseek⟩ := h
    simpa using hseek

theorem isEmpty_false_of_ne_nil {l : List Int} (h : l ≠ []) : l.isEmpty = false := by
  cases hval : l with
  | nil => exact absurd hval h
  | cons a t => rfl

theorem cscanUp_nil (c : Int) (A : DiskAcc) : cscanUp c A [] = A := by
  simp [cscanUp]

theorem cscanUp_lt {c : Int} {A : DiskAcc} {lower : List Int} (hne : lower ≠ [])
    (hlt : A.cur < c - 1) :
    cscanUp c A lower =
      serveReqs ⟨(A.seq ++ [c - 1]) ++ [0], A.seek + |c - 1 - A.cur|, 0⟩ lower := by
  rw [cscanUp, isEmpty_false_of_ne_nil hne]
  simp [hlt]

theorem cscanUp_ge {c : Int} {A : DiskAcc} {lower : List Int} (hne : lower ≠ [])
    (hge : ¬A.cur < c - 1) :
    cscanUp c A lower = serveReqs ⟨A.seq ++ [0], A.seek, 0⟩ lower := by
  rw [cscanUp, isEmpty_false_of_ne_nil hne]
  simp [hge]

theorem cscanDown_nil (c : Int) (A : DiskAcc) : cscanDown c A [] = A := by
  simp [cscanDown]

theorem cscanDown_pos {c : Int} {A : DiskAcc} {higher : List Int} (hne : higher ≠ [])
    (hpos : 0 < A.cur) :
    cscanDown c A higher =
      serveReqs ⟨(A.seq ++ [0]) ++ [c - 1], A.seek + A.cur, c - 1⟩ higher.reverse := by
  rw [cscanDown, isEmpty_false_of_ne_nil hne]
  simp [hpos]

theorem cscanDown_zero {c : Int} {A : DiskAcc} {higher : List Int} (hne : higher ≠ [])
    (hzero : ¬0 < A.cur) :
    cscanDown c A higher = serveReqs ⟨A.seq ++ [c - 1], A.seek, c - 1⟩ higher.reverse := by
  rw [cscanDown, isEmpty_false_of_ne_nil hne]
  simp [hzero]

theorem aligned_concat_counted {d : Int} {a : DiskAcc} (x : Int) (h : serveAligned d a) :
    serveAligned d ⟨a.seq ++ [x], a.seek + |x - a.cur|, x⟩ := by
  obtain ⟨hne, hcur, hseek⟩ := h
  refine ⟨by simp, (getLastD_concat _ _ _).symm, ?_⟩
  show a.seek + |x - a.cur| + d = pathSum (a.seq ++ [x])
  rw [pathSum_concat _ _ hne, ← hcur, ← hseek]
  ring

theorem aligned_concat_free {d : Int} {a : DiskAcc} (x : Int) (h : serveAligned d a) :
    serveAligned (d + |x - a.cur|) ⟨a.seq ++ [x], a.seek, x⟩ := by
  obtain ⟨hne, hcur, hseek⟩ := h
  refine ⟨by simp, (getLastD_concat _ _ _).symm, ?_⟩
  show a.seek + (d + |x - a.cur|) = pathSum (a.seq ++ [x])
  rw [pathSum_concat _ _ hne, ← hcur, ← hseek]
  ring

theorem serveHigher_aligned (s : Int) (reqs : List Int) :
    serveAligned 0 (serveReqs ⟨[s], 0, s⟩ (higherOf s reqs)) :=
  serveReqs_aligned 0 (higherOf s reqs) ⟨[s], 0, s⟩ (serveAligned_init s)

theorem serveHigher_seq (s : Int) (reqs : List Int) :
    (serveReqs ⟨[s], 0, s⟩ (higherOf s reqs)).seq = s :: higherOf s reqs := by
  rw [serveReqs_seq]
  rfl

theorem serveHigher_cur (s : Int) (reqs : List Int) :
    (serveReqs ⟨[s], 0, s⟩ (higherOf s reqs)).cur = (s :: higherOf s reqs).getLastD 0 := by
  have h := (serveHigher_aligned s reqs).2.1
  rw [serveHigher_seq] at h
  exact h

theorem simulateCSCAN_up_nil (c s : Int) (reqs : List Int) (h : lowerOf s reqs = []) :
    (simulateCSCAN c s reqs true).sequence = s :: higherOf s reqs ∧
    (simulateCSCAN c s reqs true).seekDistance =
      pathSum ((simulateCSCAN c s reqs true).sequence) := by
  obtain ⟨-, -, hseek⟩ := serveHigher_aligned s reqs
  constructor
  · simp only [simulateCSCAN, if_pos, h, cscanUp_nil]
    exact serveHigher_seq s reqs
  · simp only [simulateCSCAN, if_pos, h, cscanUp_nil]
    simpa using hseek

theorem simulateCSCAN_up (c s : Int) (reqs : List Int) (hc : 0 < c) (hs0 : 0 ≤ s)
    (hsc : s < c) (hreq : ∀ r ∈ reqs, 0 ≤ r ∧ r < c) (hlo : lowerOf s reqs ≠ []) :
    (simulateCSCAN c s reqs true).sequence =
      s :: higherOf s reqs
        ++ (if (s :: higherOf s reqs).getLastD 0 = c - 1 then [] else [c - 1])
        ++ 0 :: lowerOf s reqs ∧
    (simulateCSCAN c s reqs true).seekDistance + (c - 1) =
      pathSum ((simulateCSCAN c s reqs true).sequence) := by
  have hAal := serveHigher_aligned s reqs
  have hAseq := serveHigher_seq s reqs
  have hAcur := serveHigher_cur s reqs
  have hAle : (serveReqs ⟨[s], 0, s⟩ (higherOf s reqs)).cur ≤ c - 1 := by
    have hmem : (s :: higherOf s reqs).getLastD 0 ∈ s :: higherOf s reqs :=
      getLastD_mem _ (by simp) 0
    rw [hAcur]
    rcases List.mem_cons.mp hmem with h | h
    · omega
    · have h1 := (mem_higherOf h).1
      have h2 := (hreq _ h1).2
      omega
  have habs0 : |(0 : Int) - (c - 1)| = c - 1 := by
    rw [abs_sub_comm]
    simpa using abs_of_nonneg (by omega : (0 : Int) ≤ c - 1)
  by_cases htop : (serveReqs ⟨[s], 0, s⟩ (higherOf s reqs)).cur < c - 1
  · -- boundary cylinder appended and counted, then free jump to 0
    have hcond : ¬((s :: higherOf s reqs).getLastD 0 = c - 1) := by rw [← hAcur]; omega
    have hB := aligned_concat_counted (c - 1) hAal
    have hC := aligned_concat_free (a :=
        ⟨(serveReqs ⟨[s], 0, s⟩ (higherOf s reqs)).seq ++ [c - 1],
         (serveReqs ⟨[s], 0, s⟩ (higherOf s reqs)).seek
           + |c - 1 - (serveReqs ⟨[s], 0, s⟩ (higherOf s reqs)).cur|, c - 1⟩) 0 hB
    rw [show (0 : Int) + |(0 : Int) - (c - 1)| = c - 1 by rw [habs0]; ring] at hC
    have hfin := serveReqs_aligned (c - 1) (lowerOf s reqs) _ hC
    obtain ⟨hfne, hfcur, hfseek⟩ := hfin
    have hseq : (simulateCSCAN c s reqs true).sequence =
        s :: higherOf s reqs ++ [c - 1] ++ 0 :: lowerOf s reqs := by
      simp only [simulateCSCAN, if_pos, cscanUp_lt hlo htop]
      rw [serveReqs_seq]
      simp [hAseq]
    constructor
    · rw [hseq, if_neg hcond]
    · rw [hseq]
      have hseek : (simulateCSCAN c s reqs true).seekDistance =
          (serveReqs
            ⟨((serveReqs ⟨[s], 0, s⟩ (higherOf s reqs)).seq ++ [c - 1]) ++ [0],
             (serveReqs ⟨[s], 0, s⟩ (higherOf s reqs)).seek
               + |c - 1 - (serveReqs ⟨[s], 0, s⟩ (higherOf s reqs)).cur|, 0⟩
            (lowerOf s reqs)).seek := by
        simp only [simulateCSCAN, if_pos, cscanUp_lt hlo htop]
      rw [hseek, hfseek]
      rw [serveReqs_seq]
      simp [hAseq]
  · -- the head already sits on the boundary cylinder
    have hcureq : (serveReqs ⟨[s], 0, s⟩ (higherOf s reqs)).cur = c - 1 := by omega
    have hcond : (s :: higherOf s reqs).getLastD 0 = c - 1 := by rw [← hAcur]; omega
    have hC := aligned_concat_free 0 hAal
    rw [hcureq] at hC
    rw [show (0 : Int) + |(0 : Int) - (c - 1)| = c - 1 by rw [habs0]; ring] at hC
    have hfin := serveReqs_aligned (c - 1) (lowerOf s reqs) _ hC
    obtain ⟨hfne, hfcur, hfseek⟩ := hfin
    have hseq : (simulateCSCAN c s reqs true).sequence =
        s :: higherOf s reqs ++ 0 :: lowerOf s reqs := by
      simp only [simulateCSCAN, if_pos, cscanUp_ge hlo htop]
      rw [serveReqs_seq]
      simp [hAseq]
    constructor
    · rw [hseq, if_pos hcond]
      simp
    · rw [hseq]
      have hseek : (simulateCSCAN c s reqs true).seekDistance =
          (serveReqs
            ⟨(serveReqs ⟨[s], 0, s⟩ (higherOf s reqs)).seq ++ [0],
             (serveReqs ⟨[s], 0, s⟩ (higherOf s reqs)).seek, 0⟩
            (lowerOf s reqs)).seek := by
        simp only [simulateCSCAN, if_pos, cscanUp_ge hlo htop]
      rw [hseek, hfseek]
      rw [serveReqs_seq]
      simp [hAseq]

theorem serveLower_seq (s : Int) (reqs : List Int) :
    (serveReqs ⟨[s], 0, s⟩ (lowerOf s reqs).reverse).seq = s :: (lowerOf s reqs).reverse := by
  rw [serveReqs_seq]
  rfl

theorem serveLower_cur (s : Int) (reqs : List Int) :
    (serveReqs ⟨[s], 0, s⟩ (lowerOf s reqs).reverse).cur =
      (s :: (lowerOf s reqs).reverse).getLastD 0 := by
  have h := (serveReqs_aligned 0 (lowerOf s reqs).reverse ⟨[s], 0, s⟩ (serveAligned_init s)).2.1
  rw [serveLower_seq] at h
  exact h

theorem simulateCSCAN_down_nil (c s : Int) (reqs : List Int) (h : higherOf s reqs = []) :
    (simulateCSCAN c s reqs false).sequence = s :: (lowerOf s reqs).reverse := by
  simp only [simulateCSCAN, if_neg, h, cscanDown_nil, Bool.false_eq_true, if_false]
  exact serveLower_seq s reqs

theorem simulateCSCAN_down_seq (c s : Int) (reqs : List Int) (hhi : higherOf s reqs ≠ []) :
    (simulateCSCAN c s reqs false).sequence =
      s :: (lowerOf s reqs).reverse
        ++ (if 0 < (s :: (lowerOf s reqs).reverse).getLastD 0 then [0] else [])
        ++ (c - 1) :: (higherOf s reqs).reverse := by
  have hcur := serveLower_cur s reqs
  by_cases hpos : 0 < (serveReqs ⟨[s], 0, s⟩ (lowerOf s reqs).reverse).cur
  · rw [show (simulateCSCAN c s reqs false).sequence =
        (serveReqs
          ⟨((serveReqs ⟨[s], 0, s⟩ (lowerOf s reqs).reverse).seq ++ [0]) ++ [c - 1],
           (serveReqs ⟨[s], 0, s⟩ (lowerOf s reqs).reverse).seek
             + (serveReqs ⟨[s], 0, s⟩ (lowerOf s reqs).reverse).cur, c - 1⟩
          (higherOf s reqs).reverse).seq from by
      simp only [simulateCSCAN, Bool.false_eq_true, if_false, cscanDown_pos hhi hpos]]
    rw [serveReqs_seq, serveLower_seq, if_pos (hcur ▸ hpos)]
    simp
  · rw [show (simulateCSCAN c s reqs false).sequence =
        (serveReqs
          ⟨(serveReqs ⟨[s], 0, s⟩ (lowerOf s reqs).reverse).seq ++ [c - 1],
           (serveReqs ⟨[s], 0, s⟩ (lowerOf s reqs).reverse).seek, c - 1⟩
          (higherOf s reqs).reverse).seq from by
      simp only [simulateCSCAN, Bool.false_eq_true, if_false, cscanDown_zero hhi hpos]]
    rw [serveReqs_seq, serveLower_seq, if_neg (hcur ▸ hpos)]
    simp

/-! ### Requests equal to the start cylinder are ignored by both algorithms -/

theorem filter_ne_filter_lt (s : Int) (reqs : List Int) :
    (reqs.filter (fun r => !(r == s))).filter (fun r => r < s) =
      reqs.filter (fun r => r < s) := by
  rw [List.filter_filter]
  apply List.filter_congr
  intro a _
  by_cases h : a < s
  · have hne : (a == s) = false := by simp; omega
    simp [h, hne]
  · simp [h]

theorem filter_ne_filter_gt (s : Int) (reqs : List Int) :
    (reqs.filter (fun r => !(r == s))).filter (fun r => s < r) =
      reqs.filter (fun r => s < r) := by
  rw [List.filter_filter]
  apply List.filter_congr
  intro a _
  by_cases h : s < a
  · have hne : (a == s) = false := by simp; omega
    simp [h, hne]
  · simp [h]

theorem higherOf_filter_ne (s : Int) (reqs : List Int) :
    higherOf s (reqs.filter (fun r => !(r == s))) = higherOf s reqs := by
  apply List.eq_of_perm_of_sorted _ (higherOf_sorted _ _) (higherOf_sorted _ _)
  refine (higherOf_perm _ _).trans (.trans ?_ (higherOf_perm _ _).symm)
  rw [filter_ne_filter_gt s reqs]

theorem lowerOf_filter_ne (s : Int) (reqs : List Int) :
    lowerOf s (reqs.filter (fun r => !(r == s))) = lowerOf s reqs := by
  apply List.eq_of_perm_of_sorted _ (lowerOf_sorted _ _) (lowerOf_sorted _ _)
  refine (lowerOf_perm _ _).trans (.trans ?_ (lowerOf_perm _ _).symm)
  rw [filter_ne_filter_lt s reqs]

theorem simulateLOOK_filter_ne (c s : Int) (reqs : List Int) (dir : Bool) :
    simulateLOOK c s (reqs.filter (fun r => !(r == s))) dir = simulateLOOK c s reqs dir := by
  simp only [simulateLOOK, higherOf_filter_ne, lowerOf_filter_ne]

theorem simulateCSCAN_filter_ne (c s : Int) (reqs : List Int) (dir : Bool) :
    simulateCSCAN c s (reqs.filter (fun r => !(r == s))) dir = simulateCSCAN c s reqs dir := by
  simp only [simulateCSCAN, higherOf_filter_ne, lowerOf_filter_ne]

/-! ### Clock sweep characterization -/

/-- The reference bits after the sweep has cleared `k` consecutive positions
starting at `p` (wrapping modulo `n`). -/
def clearSeq (n : Nat) : List Nat → Nat → Nat → List Nat
  | bits, _, 0 => bits
  | bits, p, k + 1 => clearSeq n (bits.set p 0) ((p + 1) % n) k

theorem get?_eq_getD_nat {l : List Nat} {i : Nat} (h : i < l.length) :
    l.get? i = some (l.getD i 0) := by
  simp [List.getD, List.getElem?_eq_getElem h]

theorem getD_one_eq_getD_zero {l : List Nat} {p : Nat} (h : p < l.length) :
    l.getD p 1 = l.getD p 0 := by
  simp [List.getD, List.getElem?_eq_getElem h]

theorem mem_iff_getD_nat {l : List Nat} {x : Nat} :
    x ∈ l ↔ ∃ j, j < l.length ∧ l.getD j 0 = x := by
  constructor
  · intro h
    rcases List.mem_iff_getElem.mp h with ⟨j, hj, hx⟩
    exact ⟨j, hj, by simp [List.getD, List.getElem?_eq_getElem hj, hx]⟩
  · rintro ⟨j, hj, hx⟩
    rw [List.getD_eq_getElem l 0 hj] at hx
    exact hx ▸ List.getElem_mem hj

theorem exists_cyclic_offset {n p q : Nat} (hp : p < n) (hq : q < n) :
    ∃ i, i < n ∧ (p + i) % n = q := by
  rcases le_or_lt p q with h | h
  · exact ⟨q - p, by omega, by rw [show p + (q - p) = q by omega, Nat.mod_eq_of_lt hq]⟩
  · refine ⟨q + n - p, by omega, ?_⟩
    rw [show p + (q + n - p) = q + n by omega, Nat.add_mod_right, Nat.mod_eq_of_lt hq]

theorem clearSeq_length (n : Nat) : ∀ (k : Nat) (bits : List Nat) (p : Nat),
    (clearSeq n bits p k).length = bits.length := by
  intro k
  induction k with
  | zero => intro bits p; rfl
  | succ k ih =>
    intro bits p
    rw [clearSeq, ih]
    simp

theorem clearSeq_bool (n : Nat) : ∀ (k : Nat) (bits : List Nat) (p : Nat),
    (∀ b ∈ bits, b = 0 ∨ b = 1) → ∀ b ∈ clearSeq n bits p k, b = 0 ∨ b = 1 := by
  intro k
  induction k with
  | zero => intro bits p h; exact h
  | succ k ih =>
    intro bits p h
    rw [clearSeq]
    apply ih
    intro b hb
    rcases List.mem_or_eq_of_mem_set hb with h1 | h1
    · exact h b h1
    · exact Or.inl h1

theorem clearSeq_zero_pres (n : Nat) : ∀ (k : Nat) (bits : List Nat) (p q : Nat),
    bits.getD q 0 = 0 → (clearSeq n bits p k).getD q 0 = 0 := by
  intro k
  induction k with
  | zero => intro bits p q h; exact h
  | succ k ih =>
    intro bits p q h
    rw [clearSeq]
    apply ih
    by_cases hpq : p = q
    · subst hpq
      by_cases hlt : p < bits.length
      · exact getD_set_self 0 0 hlt
      · rw [List.set_eq_of_length_le (by omega)]
        exact h
    · rw [getD_set_ne _ _ hpq]
      exact h

theorem clearSeq_covered (n : Nat) : ∀ (k : Nat) (bits : List Nat) (p q : Nat),
    bits.length = n → p < n → q < n →
    (∃ i, i < k ∧ (p + i) % n = q) → (clearSeq n bits p k).getD q 0 = 0 := by
  intro k
  induction k with
  | zero =>
    rintro bits p q _ _ _ ⟨i, hi, _⟩
    omega
  | succ k ih =>
    rintro bits p q hlen hp hq ⟨i, hi, hiq⟩
    rw [clearSeq]
    cases i with
    | zero =>
      rw [Nat.add_zero, Nat.mod_eq_of_lt hp] at hiq
      subst hiq
      exact clearSeq_zero_pres n k _ _ _ (getD_set_self 0 0 (by omega))
    | succ i' =>
      apply ih _ _ _ (by simpa using hlen) (Nat.mod_lt _ (by omega)) hq
      refine ⟨i', by omega, ?_⟩
      rw [Nat.mod_add_mod]
      rw [show (p + 1) + i' = p + (i' + 1) by ring]
      exact hiq

theorem clockSweepAux_found {n startP fuel : Nat} {bits : List Nat} {p lc : Nat} {rf : Bool}
    (h : bits.getD p 1 = 0) :
    clockSweepAux n startP (fuel + 1) bits p lc rf =
      some ⟨bits.set p 1, p, (p + 1) % n, rf, false⟩ := by
  rw [clockSweepAux, if_pos h]

theorem clockSweepAux_second {n startP fuel : Nat} {bits : List Nat} {p lc : Nat} {rf : Bool}
    (h : ¬(bits.getD p 1 = 0)) (hnot : ¬((p + 1) % n = startP)) :
    clockSweepAux n startP (fuel + 1) bits p lc rf =
      clockSweepAux n startP fuel (bits.set p 0) ((p + 1) % n) lc rf := by
  rw [clockSweepAux, if_neg h, if_neg hnot]

theorem clockSweepAux_wrapFirst {n startP fuel : Nat} {bits : List Nat} {p : Nat} {rf : Bool}
    (h : ¬(bits.getD p 1 = 0)) (hwrap : (p + 1) % n = startP) :
    clockSweepAux n startP (fuel + 1) bits p 0 rf =
      clockSweepAux n startP fuel (bits.set p 0) startP 1 true := by
  rw [clockSweepAux, if_neg h, if_pos hwrap, if_pos (show 0 + 1 = 1 from rfl), hwrap]

theorem clockSweepAux_find (n startP : Nat) :
    ∀ (k : Nat) (bits : List Nat) (p lc : Nat) (rf : Bool) (fuel : Nat),
    bits.length = n → p < n → k < n → k + 1 ≤ fuel →
    (∀ i, i < k → bits.getD ((p + i) % n) 0 ≠ 0) →
    bits.getD ((p + k) % n) 0 = 0 →
    (∀ i, 0 < i → i ≤ k → (p + i) % n ≠ startP) →
    clockSweepAux n startP fuel bits p lc rf =
      some ⟨(clearSeq n bits p k).set ((p + k) % n) 1, (p + k) % n,
            ((p + k) % n + 1) % n, rf, false⟩ := by
  intro k
  induction k with
  | zero =>
    intro bits p lc rf fuel hlen hp _ hfuel _ hzero _
    obtain ⟨f, rfl⟩ : ∃ f, fuel = f + 1 := ⟨fuel - 1, by omega⟩
    have hpp : (p + 0) % n = p := by rw [Nat.add_zero, Nat.mod_eq_of_lt hp]
    rw [hpp] at hzero ⊢
    have hb : bits.getD p 1 = 0 := by
      rw [getD_one_eq_getD_zero (by omega)]
      exact hzero
    rw [clockSweepAux_found hb]
    rfl
  | succ k ih =>
    intro bits p lc rf fuel hlen hp hkn hfuel hnz hzero havoid
    obtain ⟨f, rfl⟩ : ∃ f, fuel = f + 1 := ⟨fuel - 1, by omega⟩
    have hv : bits.getD p 0 ≠ 0 := by
      have := hnz 0 (by omega)
      rwa [Nat.add_zero, Nat.mod_eq_of_lt hp] at this
    have hb : ¬(bits.getD p 1 = 0) := by
      rw [getD_one_eq_getD_zero (by omega)]
      exact hv
    have hnot : ¬((p + 1) % n = startP) := havoid 1 (by omega) (by omega)
    rw [clockSweepAux_second hb hnot]
    have hshift : ∀ j, ((p + 1) % n + j) % n = (p + (j + 1)) % n := by
      intro j
      rw [Nat.mod_add_mod]
      congr 1
      ring
    have hne_self : ∀ j, 0 < j → j < n → (p + j) % n ≠ p :=
      fun j h1 h2 => add_mod_ne_self h1 h2 hp
    have := ih (bits.set p 0) ((p + 1) % n) lc rf f (by simpa using hlen)
      (Nat.mod_lt _ (by omega)) (by omega) (by omega)
      (fun i hi => by
        rw [hshift i, getD_set_ne _ _ (fun hc => hne_self (i + 1) (by omega) (by omega) hc.symm)]
        exact hnz (i + 1) (by omega))
      (by
        rw [hshift k, getD_set_ne _ _ (fun hc => hne_self (k + 1) (by omega) (by omega) hc.symm)]
        exact hzero)
      (fun i h1 h2 => by
        rw [hshift i]
        exact havoid (i + 1) (by omega) (by omega))
    rw [this, clearSeq]
    rw [hshift k]

theorem clockSweepAux_revolution (n startP : Nat) :
    ∀ (k : Nat) (bits : List Nat) (p : Nat) (rf : Bool) (fuel : Nat),
    bits.length = n → p < n → 0 < k → k ≤ n →
    (p + k) % n = startP →
    (∀ i, i < k → bits.getD ((p + i) % n) 0 ≠ 0) →
    (∀ i, 0 < i → i < k → (p + i) % n ≠ startP) →
    k + 1 ≤ fuel →
    clockSweepAux n startP fuel bits p 0 rf =
      clockSweepAux n startP (fuel - k) (clearSeq n bits p k) startP 1 true := by
  intro k
  induction k with
  | zero => intro bits p rf fuel _ _ h0 _ _ _ _ _; omega
  | succ k ih =>
    intro bits p rf fuel hlen hp _ hkn hwrap hnz havoid hfuel
    obtain ⟨f, rfl⟩ : ∃ f, fuel = f + 1 := ⟨fuel - 1, by omega⟩
    have hv : bits.getD p 0 ≠ 0 := by
      have := hnz 0 (by omega)
      rwa [Nat.add_zero, Nat.mod_eq_of_lt hp] at this
    have hb : ¬(bits.getD p 1 = 0) := by
      rw [getD_one_eq_getD_zero (by omega)]
      exact hv
    have hshift : ∀ j, ((p + 1) % n + j) % n = (p + (j + 1)) % n := by
      intro j
      rw [Nat.mod_add_mod]
      congr 1
      ring
    have hne_self : ∀ j, 0 < j → j < n → (p + j) % n ≠ p :=
      fun j h1 h2 => add_mod_ne_self h1 h2 hp
    cases Nat.eq_zero_or_pos k with
    | inl hk =>
      subst hk
      have hp' : (p + 1) % n = startP := hwrap
      rw [clockSweepAux_wrapFirst hb hp']
      have hcs : clearSeq n bits p 1 = bits.set p 0 := rfl
      rw [hcs]
      congr 1
    | inr hk =>
      have hnot : ¬((p + 1) % n = startP) := havoid 1 (by omega) (by omega)
      rw [clockSweepAux_second hb hnot]
      have := ih (bits.set p 0) ((p + 1) % n) rf f (by simpa using hlen)
        (Nat.mod_lt _ (by omega)) hk (by omega)
        (by rw [hshift k]; exact hwrap)
        (fun i hi => by
          rw [hshift i, getD_set_ne _ _ (fun hc => hne_self (i + 1) (by omega) (by omega) hc.symm)]
          exact hnz (i + 1) (by omega))
        (fun i h1 h2 => by
          rw [hshift i]
          exact havoid (i + 1) (by omega) (by omega))
        (by omega)
      rw [this, clearSeq]
      congr 1
      omega

/-- Characterization of the clock victim sweep at any sufficient fuel: it
always finds a victim (no later than the first probe after one full
revolution, so fuel `n + 1` suffices), never through the forced-eviction
branch, and it flags a reset revolution exactly when every reference bit
was `1` when the sweep started. -/
theorem clockSweepAux_spec (n : Nat) (bits : List Nat) (p fuel : Nat) (hn : 0 < n)
    (hlen : bits.length = n) (hp : p < n) (hb : ∀ b ∈ bits, b = 0 ∨ b = 1)
    (hfuel : n + 1 ≤ fuel) :
    ∃ r, clockSweepAux n p fuel bits p 0 false = some r ∧ r.forced = false ∧
      r.victim < n ∧ r.pointerAfter = (r.victim + 1) % n ∧
      r.bits.length = n ∧ (∀ b ∈ r.bits, b = 0 ∨ b = 1) ∧
      r.bits.getD r.victim 0 = 1 ∧
      (r.resetBits = true ↔ ∀ b ∈ bits, b = 1) := by
  by_cases hz : ∃ i, i < n ∧ bits.getD ((p + i) % n) 0 = 0
  · -- some bit on the sweep path is already 0: the sweep stops there
    have hz' : ∃ i, bits.getD ((p + i) % n) 0 = 0 := ⟨hz.choose, hz.choose_spec.2⟩
    set k := Nat.find hz' with hkdef
    have hkzero : bits.getD ((p + k) % n) 0 = 0 := Nat.find_spec hz'
    have hkmin : ∀ i, i < k → bits.getD ((p + i) % n) 0 ≠ 0 :=
      fun i hi => Nat.find_min hz' hi
    have hkn : k < n := by
      obtain ⟨i, hi, hiz⟩ := hz
      have : k ≤ i := Nat.find_min' hz' hiz
      omega
    have heq := clockSweepAux_find n p k bits p 0 false fuel hlen hp hkn (by omega)
      hkmin hkzero
      (fun i h1 h2 => add_mod_ne_self h1 (by omega) hp)
    refine ⟨_, heq, rfl, Nat.mod_lt _ (by omega), rfl, ?_, ?_, ?_, ?_⟩
    · rw [List.length_set, clearSeq_length]
      exact hlen
    · intro b hbm
      rcases List.mem_or_eq_of_mem_set hbm with h1 | h1
      · exact clearSeq_bool n k bits p hb b h1
      · exact Or.inr h1
    · exact getD_set_self 1 0
        (by rw [clearSeq_length, hlen]; exact Nat.mod_lt _ (by omega))
    · simp only [Bool.false_eq_true, false_iff]
      intro hall
      obtain ⟨i, hi, hiz⟩ := hz
      have hqlt : (p + i) % n < bits.length := by
        rw [hlen]
        exact Nat.mod_lt _ (by omega)
      have : (0 : Nat) ∈ bits := mem_iff_getD_nat.mpr ⟨(p + i) % n, hqlt, hiz⟩
      exact absurd (hall 0 this).symm (by omega)
  · -- every bit on the path is 1: full revolution, reset, then evict at start
    push_neg at hz
    have hnz : ∀ i, i < n → bits.getD ((p + i) % n) 0 ≠ 0 := hz
    have hrev := clockSweepAux_revolution n p n bits p false fuel hlen hp (by omega)
      (le_refl n) (by rw [Nat.add_mod_right, Nat.mod_eq_of_lt hp]) hnz
      (fun i h1 h2 => add_mod_ne_self h1 h2 hp)
      (by omega)
    have hclen : (clearSeq n bits p n).length = n := by rw [clearSeq_length]; exact hlen
    have hczero : (clearSeq n bits p n).getD p 0 = 0 :=
      clearSeq_covered n n bits p p hlen hp hp ⟨0, by omega, by rw [Nat.add_zero, Nat.mod_eq_of_lt hp]⟩
    obtain ⟨f, hf⟩ : ∃ f, fuel - n = f + 1 := ⟨fuel - n - 1, by omega⟩
    have hget : (clearSeq n bits p n).getD p 1 = 0 := by
      rw [getD_one_eq_getD_zero (by omega)]
      exact hczero
    have hfound : clockSweepAux n p (fuel - n) (clearSeq n bits p n) p 1 true =
        some ⟨(clearSeq n bits p n).set p 1, p, (p + 1) % n, true, false⟩ := by
      rw [hf, clockSweepAux_found hget]
    refine ⟨_, by rw [hrev, hfound], rfl, hp, rfl, ?_, ?_, ?_, ?_⟩
    · rw [List.length_set, clearSeq_length]
      exact hlen
    · intro b hbm
      rcases List.mem_or_eq_of_mem_set hbm with h1 | h1
      · exact clearSeq_bool n n bits p hb b h1
      · exact Or.inr h1
    · exact getD_set_self 1 0 (by omega)
    · simp only [true_iff]
      intro b hbm
      rcases hb b hbm with h1 | h1
      · exfalso
        subst h1
        obtain ⟨j, hj, hjb⟩ := mem_iff_getD_nat.mp hbm
        obtain ⟨i, hi, hip⟩ := exists_cyclic_offset hp (show j < n by omega)
        exact hnz i hi (hip ▸ hjb)
      · exact h1

theorem clockSweep_spec (n : Nat) (bits : List Nat) (p : Nat) (hn : 0 < n)
    (hlen : bits.length = n) (hp : p < n) (hb : ∀ b ∈ bits, b = 0 ∨ b = 1) :
    ∃ r, clockSweep n bits p = some r ∧ r.forced = false ∧
      r.victim < n ∧ r.pointerAfter = (r.victim + 1) % n ∧
      r.bits.length = n ∧ (∀ b ∈ r.bits, b = 0 ∨ b = 1) ∧
      r.bits.getD r.victim 0 = 1 ∧
      (r.resetBits = true ↔ ∀ b ∈ bits, b = 1) :=
  clockSweepAux_spec n bits p (2 * n + 2) hn hlen hp hb (by omega)

/-! ### ARB/Clock invariant and step lemmas -/

/-- Invariant of the ARB loop: the frame table and bit array keep their
size, the pointer stays in range, the first `framesFilled` slots are
occupied and the rest hold the `-1` sentinel, and every reference bit is
`0` or `1`. -/
def arbInv (n : Nat) (s : ARBState) : Prop :=
  s.frames.length = n ∧ s.refBits.length = n ∧ s.pointer < n ∧ s.framesFilled ≤ n ∧
  (∀ j, j < n → (s.frames.getD j 0 = -1 ↔ s.framesFilled ≤ j)) ∧
  (∀ b ∈ s.refBits, b = 0 ∨ b = 1)

theorem arbInv_init {n : Nat} (hn : 0 < n) : arbInv n (arbInit n) := by
  refine ⟨by simp [arbInit], by simp [arbInit], by simpa [arbInit] using hn,
          by simp [arbInit], ?_, ?_⟩
  · intro j hj
    simp [arbInit, List.getD, List.getElem?_replicate, hj]
  · intro b hb
    left
    simpa [arbInit] using List.eq_of_mem_replicate hb

/-- Per-step reference-bit effect of the ARB algorithm: a hit or a load
leaves the touched frame's bit at `1`, and the reset flag is raised exactly
on a fault over a full table whose bits were all `1` when the sweep
started. -/
def arbBitEffect (st : MemoryStep) : Prop :=
  (st.isFault = false → ∃ j, jsIndexOf st.frames st.reference = some j ∧
     (st.refBitsAfter.getD []).getD j 0 = 1) ∧
  (st.isFault = true → ∃ j : Nat, st.replacedFrame = some (j : Int) ∧
     (st.refBitsAfter.getD []).getD j 0 = 1) ∧
  (st.resetBits = some true ↔
     st.isFault = true ∧ (-1 : Int) ∉ st.frames ∧ ∀ b ∈ st.refBits.getD [], b = 1)

theorem arbStep_spec {n : Nat} (hn : 0 < n) (s : ARBState) (page : Nat)
    (hinv : arbInv n s) :
    ∃ s' st, arbStep n s page = some (s', st) ∧ arbInv n s' ∧
      st.frames = s.frames ∧ arbBitEffect st ∧ framesEffect st := by
  obtain ⟨hflen, hblen, hptr, hfill, hpref, hbool⟩ := hinv
  cases hhit : jsIndexOf s.frames (page : Int) with
  | some frameIndex =>
    -- hit branch
    obtain ⟨hj, hjx, _⟩ := jsIndexOf_eq_some hhit
    have hstep : arbStep n s page =
        some (⟨s.frames, s.refBits.set frameIndex 1, s.pointer, s.framesFilled⟩,
          { reference := (page : Int), frames := s.frames, refBits := some s.refBits,
            framesAfter := s.frames, refBitsAfter := some (s.refBits.set frameIndex 1),
            isFault := false, resetBits := some false,
            pointerPosition := some s.pointer, pointerPositionAfter := some s.pointer }) := by
      simp [arbStep, hhit]
    refine ⟨_, _, hstep, ⟨hflen, by simpa using hblen, hptr, hfill, hpref, ?_⟩,
            rfl, ⟨?_, ?_, ?_⟩, ⟨fun _ => rfl, fun hc => absurd hc (by simp)⟩⟩
    · intro b hbm
      rcases List.mem_or_eq_of_mem_set hbm with h1 | h1
      · exact hbool b h1
      · exact Or.inr h1
    · intro _
      refine ⟨frameIndex, hhit, ?_⟩
      show (s.refBits.set frameIndex 1).getD frameIndex 0 = 1
      exact getD_set_self 1 0 (by omega)
    · intro hc
      exact absurd hc (by simp)
    · constructor
      · intro hc
        simp at hc
      · rintro ⟨hc, -, -⟩
        simp at hc
  | none =>
    have hnotin : (page : Int) ∉ s.frames := jsIndexOf_eq_none hhit
    by_cases hlt : s.framesFilled < n
    · -- fill branch: the first `-1` slot is at index `framesFilled`
      have hempty : jsIndexOf s.frames (-1) = some s.framesFilled := by
        apply jsIndexOf_first (by omega) ((hpref s.framesFilled hlt).mpr (le_refl _))
        intro i hi hc
        have := (hpref i (by omega)).mp hc
        omega
      have hstep : arbStep n s page =
          some (⟨s.frames.set s.framesFilled (page : Int),
                 s.refBits.set s.framesFilled 1,
                 (s.framesFilled + 1) % n, s.framesFilled + 1⟩,
            { reference := (page : Int), frames := s.frames, refBits := some s.refBits,
              framesAfter := s.frames.set s.framesFilled (page : Int),
              refBitsAfter := some (s.refBits.set s.framesFilled 1),
              isFault := true, replacedFrame := some ((s.framesFilled : Nat) : Int),
              resetBits := some false,
              pointerPosition := some s.pointer,
              pointerPositionAfter := some ((s.framesFilled + 1) % n) }) := by
        simp [arbStep, hhit, hlt, hempty]
      have hm1 : (-1 : Int) ∈ s.frames :=
        mem_iff_getD.mpr ⟨s.framesFilled, by omega,
          (hpref s.framesFilled hlt).mpr (le_refl _)⟩
      refine ⟨_, _, hstep,
              ⟨by simpa using hflen, by simpa using hblen, Nat.mod_lt _ (by omega),
               show s.framesFilled + 1 ≤ n by omega, ?_, ?_⟩, rfl, ⟨?_, ?_, ?_⟩, ⟨?_, ?_⟩⟩
      · intro j hj
        show (s.frames.set s.framesFilled (page : Int)).getD j 0 = -1 ↔ s.framesFilled + 1 ≤ j
        by_cases hje : j = s.framesFilled
        · subst hje
          rw [getD_set_self_int _ _ (by omega)]
          constructor
          · intro hc
            exact absurd hc (by omega)
          · omega
        · rw [getD_set_ne_int _ _ (fun hc => hje hc.symm), hpref j hj]
          omega
      · intro b hbm
        rcases List.mem_or_eq_of_mem_set hbm with h1 | h1
        · exact hbool b h1
        · exact Or.inr h1
      · intro hc
        exact absurd hc (by simp)
      · intro _
        refine ⟨s.framesFilled, rfl, ?_⟩
        show (s.refBits.set s.framesFilled 1).getD s.framesFilled 0 = 1
        exact getD_set_self 1 0 (by omega)
      · constructor
        · intro hc
          simp at hc
        · rintro ⟨-, hno, -⟩
          exact absurd hm1 hno
      · intro hc
        exact absurd hc (by simp)
      · intro _
        refine ⟨s.framesFilled, rfl, show s.framesFilled < s.frames.length by omega, ?_, ?_⟩
        · show (s.frames.set s.framesFilled (page : Int)).getD s.framesFilled 0 ≠
            s.frames.getD s.framesFilled 0
          rw [getD_set_self_int _ _ (by omega), (hpref s.framesFilled hlt).mpr (le_refl _)]
          omega
        · intro i hi
          show (s.frames.set s.framesFilled (page : Int)).getD i 0 = s.frames.getD i 0
          exact getD_set_ne_int _ _ (fun hc => hi hc.symm)
    · -- full-table branch: run the clock sweep
      have hfull : s.framesFilled = n := by omega
      have hnom1 : (-1 : Int) ∉ s.frames := by
        intro hc
        obtain ⟨j, hj, hjv⟩ := mem_iff_getD.mp hc
        have := (hpref j (by omega)).mp hjv
        omega
      obtain ⟨r, hr, hforced, hvlt, hpa, hrlen, hrbool, hrv1, hriff⟩ :=
        clockSweep_spec n s.refBits s.pointer hn hblen hptr hbool
      have hstep : arbStep n s page =
          some (⟨s.frames.set r.victim (page : Int), r.bits, r.pointerAfter,
                 s.framesFilled⟩,
            { reference := (page : Int), frames := s.frames, refBits := some s.refBits,
              framesAfter := s.frames.set r.victim (page : Int),
              refBitsAfter := some r.bits,
              isFault := true, replacedFrame := some ((r.victim : Nat) : Int),
              resetBits := some r.resetBits,
              pointerPosition := some s.pointer,
              pointerPositionAfter := some r.pointerAfter }) := by
        simp [arbStep, hhit, hlt, hr]
      refine ⟨_, _, hstep,
              ⟨by simpa using hflen, hrlen, by rw [hpa]; exact Nat.mod_lt _ (by omega),
               hfill, ?_, hrbool⟩, rfl, ⟨?_, ?_, ?_⟩, ⟨?_, ?_⟩⟩
      · intro j hj
        show (s.frames.set r.victim (page : Int)).getD j 0 = -1 ↔ s.framesFilled ≤ j
        constructor
        · intro hc
          by_cases hje : j = r.victim
          · subst hje
            rw [getD_set_self_int _ _ (by omega)] at hc
            exact absurd hc (by omega)
          · rw [getD_set_ne_int _ _ (fun hc' => hje hc'.symm)] at hc
            rw [hpref j hj] at hc
            exact hc
        · intro hc
          omega
      · intro hc
        exact absurd hc (by simp)
      · intro _
        exact ⟨r.victim, rfl, hrv1⟩
      · constructor
        · intro hc
          have : r.resetBits = true := by
            have := congrArg (fun o => o.getD false) hc
            simpa using this
          exact ⟨rfl, hnom1, hriff.mp this⟩
        · rintro ⟨-, -, hall⟩
          show some r.resetBits = some true
          rw [hriff.mpr hall]
      · intro hc
        exact absurd hc (by simp)
      · intro _
        refine ⟨r.victim, rfl, show r.victim < s.frames.length by omega, ?_, ?_⟩
        · show (s.frames.set r.victim (page : Int)).getD r.victim 0 ≠
            s.frames.getD r.victim 0
          rw [getD_set_self_int _ _ (by omega)]
          intro hc
          exact hnotin (mem_iff_getD.mpr ⟨r.victim, by omega, hc.symm⟩)
        · intro i hi
          show (s.frames.set r.victim (page : Int)).getD i 0 = s.frames.getD i 0
          exact getD_set_ne_int _ _ (fun hc => hi hc.symm)

theorem arbRunAux_spec {n : Nat} (hn : 0 < n) :
    ∀ (refs : List Nat) (s : ARBState), arbInv n s →
      ∃ r, arbRunAux n s refs = some r ∧ r.2.1 + r.2.2 = refs.length ∧
        ∀ st ∈ r.1, arbBitEffect st ∧ framesEffect st := by
  intro refs
  induction refs with
  | nil =>
    intro s _
    exact ⟨([], 0, 0), rfl, rfl, by simp⟩
  | cons page rest ih =>
    intro s hinv
    obtain ⟨s', st, hstep, hinv', -, hbit, heff⟩ := arbStep_spec hn s page hinv
    obtain ⟨r, hrun, hcount, hsteps⟩ := ih s' hinv'
    refine ⟨(st :: r.1, (if st.isFault then r.2.1 + 1 else r.2.1),
             (if st.isFault then r.2.2 else r.2.2 + 1)), ?_, ?_, ?_⟩
    · simp only [arbRunAux, hstep, hrun]
    · cases st.isFault <;> simp <;> omega
    · intro st' hst'
      rcases List.mem_cons.mp hst' with h | h
      · exact h ▸ ⟨hbit, heff⟩
      · exact hsteps st' h

theorem simulateARB_spec {n : Nat} (hn : 0 < n) (refs : List Nat) :
    ∃ res, simulateARB n refs = some res ∧ res.faults + res.hits = refs.length ∧
      ∀ st ∈ res.steps, arbBitEffect st ∧ framesEffect st := by
  obtain ⟨r, hrun, hcount, hsteps⟩ := arbRunAux_spec hn refs (arbInit n) (arbInv_init hn)
  exact ⟨⟨r.1, r.2.1, r.2.2⟩, by simp [simulateARB, hrun], hcount, hsteps⟩

/-! ### Validator lemmas -/

theorem isNegVal_false_iff (j : JsNum) : j.isNegVal = false ↔ 0 ≤ j.toRat := by
  have hpow : (0 : ℚ) < (10 : ℚ) ^ j.scale := by positivity
  have hdiv : ∀ x : ℚ, 0 ≤ x / (10 : ℚ) ^ j.scale ↔ 0 ≤ x := by
    intro x
    rw [le_div_iff hpow, zero_mul]
  rw [JsNum.toRat, hdiv]
  cases hneg : j.neg with
  | false =>
    simp [JsNum.isNegVal, hneg]
  | true =>
    simp only [JsNum.isNegVal, hneg, Bool.true_and, cond]
    constructor
    · intro h
      have : j.units = 0 := by simpa using h
      simp [this]
    · intro h
      have : -(j.units : ℚ) ≥ 0 := h
      have h0 : (j.units : ℚ) ≤ 0 := by linarith
      have : j.units = 0 := by exact_mod_cast le_antisymm h0 (by positivity)
      simp [this]

theorem isEmpty_false_iff_char {l : List Char} : l.isEmpty = false ↔ l ≠ [] := by
  cases l <;> simp

theorem validateMemoryInput_only_if (f r : String)
    (hval : (validateMemoryInput f r).valid = true) :
    (∃ k, jsParseInt f = some k ∧ 0 < k) ∧ trimChars r.data ≠ [] ∧
    ∀ t ∈ tokensWs (trimChars r.data), ∃ j, jsNumber t = some j ∧ 0 ≤ j.toRat := by
  cases hpf : jsParseInt f with
  | none =>
    have heq : validateMemoryInput f r =
        ⟨false, "Number of frames must be a positive integer", none, none⟩ := by
      simp [validateMemoryInput, hpf]
    rw [heq] at hval
    simp at hval
  | some k =>
    by_cases hk : k ≤ 0
    · have heq : validateMemoryInput f r =
          ⟨false, "Number of frames must be a positive integer", none, none⟩ := by
        simp [validateMemoryInput, hpf, hk]
      rw [heq] at hval
      simp at hval
    · by_cases htrim : (trimChars r.data).isEmpty = true
      · have heq : validateMemoryInput f r =
            ⟨false, "Reference string is required", none, none⟩ := by
          simp [validateMemoryInput, hpf, hk, htrim]
        rw [heq] at hval
        simp at hval
      · by_cases hnan : ((tokensWs (trimChars r.data)).map jsNumber).any Option.isNone = true
        · have heq : validateMemoryInput f r =
              ⟨false, "Reference string must contain only numbers separated by spaces",
               none, none⟩ := by
            simp only [validateMemoryInput, hpf, hk, if_neg hk, htrim, hnan]
            simp [hnan]
          rw [heq] at hval
          simp at hval
        · by_cases hneg : (((tokensWs (trimChars r.data)).map jsNumber).map
              (fun o => o.getD ⟨false, 0, 0⟩)).any JsNum.isNegVal = true
          · have heq : validateMemoryInput f r =
                ⟨false, "Reference string must contain non-negative integers", none, none⟩ := by
              simp only [validateMemoryInput, hpf, hk, if_neg hk, htrim, hnan, hneg]
              simp [hnan, hneg]
            rw [heq] at hval
            simp at hval
          · refine ⟨⟨k, rfl, by omega⟩, fun hc => htrim (by rw [hc]; rfl), ?_⟩
            intro t ht
            have hsome : (jsNumber t).isNone = false := by
              rcases hjt : (jsNumber t).isNone with _ | _
              · rfl
              · exfalso
                apply hnan
                rw [List.any_eq_true]
                exact ⟨jsNumber t, List.mem_map_of_mem _ ht, hjt⟩
            obtain ⟨j, hj⟩ : ∃ j, jsNumber t = some j := by
              cases hjn : jsNumber t with
              | none => rw [hjn] at hsome; simp at hsome
              | some j => exact ⟨j, rfl⟩
            refine ⟨j, hj, ?_⟩
            rw [← isNegVal_false_iff]
            rcases hjv : j.isNegVal with _ | _
            · rfl
            · exfalso
              apply hneg
              rw [List.any_eq_true]
              refine ⟨j, ?_, hjv⟩
              rw [List.map_map]
              refine List.mem_map.mpr ⟨t, ht, ?_⟩
              simp [hj]

/-! ### Bounds on the head position after a sweep -/

theorem lastHigher_le {c s : Int} {reqs : List Int} (hsc : s < c)
    (hreq : ∀ r ∈ reqs, 0 ≤ r ∧ r < c) : (s :: higherOf s reqs).getLastD 0 ≤ c - 1 := by
  have hmem := getLastD_mem (s :: higherOf s reqs) (by simp) 0
  rcases List.mem_cons.mp hmem with h | h
  · omega
  · have := (hreq _ (mem_higherOf h).1).2
    omega

theorem lastHigher_ge (s : Int) (reqs : List Int) : s ≤ (s :: higherOf s reqs).getLastD 0 := by
  have hmem := getLastD_mem (s :: higherOf s reqs) (by simp) 0
  rcases List.mem_cons.mp hmem with h | h
  · omega
  · have := (mem_higherOf h).2
    omega

theorem lastLower_le (s : Int) (reqs : List Int) :
    (s :: (lowerOf s reqs).reverse).getLastD 0 ≤ s := by
  have hmem := getLastD_mem (s :: (lowerOf s reqs).reverse) (by simp) 0
  rcases List.mem_cons.mp hmem with h | h
  · omega
  · have := (mem_lowerOf (List.mem_reverse.mp h)).2
    omega

theorem lowerOf_reverse_sorted (s : Int) (reqs : List Int) :
    List.Sorted (fun a b : Int => b ≤ a) (lowerOf s reqs).reverse := by
  rw [List.Sorted, List.pairwise_reverse]
  exact lowerOf_sorted s reqs

/-! ### The claims -/

/-- C1: for every `frameCount ≥ 1` and every reference sequence, both
`simulateLRU` and `simulateARB` return a `MemoryResult` whose fault and hit
counters sum to the length of the reference sequence. -/
theorem claim_C1 (frameCount : Nat) (refString : List Nat) (hfc : 1 ≤ frameCount) :
    (simulateLRU frameCount refString).faults + (simulateLRU frameCount refString).hits
      = refString.length ∧
    ∃ res, simulateARB frameCount refString = some res ∧
      res.faults + res.hits = refString.length := by
  constructor
  · exact lruRunAux_counts refString (lruInit frameCount)
  · obtain ⟨res, h1, h2, -⟩ := simulateARB_spec (show 0 < frameCount by omega) refString
    exact ⟨res, h1, h2⟩

theorem claim_C1_witness :
    (simulateLRU 3 [7, 0, 1, 2, 0]).faults + (simulateLRU 3 [7, 0, 1, 2, 0]).hits = 5 ∧
    ∃ res, simulateARB 3 [7, 0, 1, 2, 0] = some res ∧ res.faults + res.hits = 5 :=
  claim_C1 3 [7, 0, 1, 2, 0] (by decide)

/-- C2: on the textbook workload `frameCount = 3`,
`referenceSequence = [7,0,1,2,0,3,0,4,2,3,0,3,2]`, LRU produces 9 faults and
4 hits, and on every fault with a full frame table the evicted frame is the
one at the front (least-recently-used end) of the usage-order list. -/
theorem claim_C2 :
    (simulateLRU 3 [7, 0, 1, 2, 0, 3, 0, 4, 2, 3, 0, 3, 2]).faults = 9 ∧
    (simulateLRU 3 [7, 0, 1, 2, 0, 3, 0, 4, 2, 3, 0, 3, 2]).hits = 4 ∧
    ∀ pr ∈ (lruStates (lruInit 3) [7, 0, 1, 2, 0, 3, 0, 4, 2, 3, 0, 3, 2]).zip
        (simulateLRU 3 [7, 0, 1, 2, 0, 3, 0, 4, 2, 3, 0, 3, 2]).steps,
      pr.2.isFault = true → (-1 : Int) ∉ pr.1.frames →
        pr.2.replacedFrame = pr.1.orderOfUse.head? := by
  decide

/-- C3: for every validated disk workload moving up with at least one
request strictly below the start cylinder, C-SCAN serves the higher
requests ascending, then visits the top boundary `cylinderCount - 1`
(counted) unless the head is already there, then jumps to cylinder `0`
(free), then serves the lower requests ascending, so the seek distance is
the path sum of the visited sequence minus exactly the wrap jump
`cylinderCount - 1`. -/
theorem claim_C3 (c s : Int) (reqs : List Int) (hc : 0 < c) (hs0 : 0 ≤ s) (hsc : s < c)
    (hreq : ∀ r ∈ reqs, 0 ≤ r ∧ r < c) (hlow : ∃ r ∈ reqs, r < s) :
    ∃ hi lo, List.Perm hi (reqs.filter (fun r => s < r)) ∧ List.Sorted (· ≤ ·) hi ∧
      List.Perm lo (reqs.filter (fun r => r < s)) ∧ List.Sorted (· ≤ ·) lo ∧
      (simulateCSCAN c s reqs true).sequence =
        s :: hi ++ (if (s :: hi).getLastD 0 = c - 1 then [] else [c - 1]) ++ 0 :: lo ∧
      (simulateCSCAN c s reqs true).seekDistance + (c - 1) =
        pathSum (simulateCSCAN c s reqs true).sequence := by
  obtain ⟨r0, hr0, hr0s⟩ := hlow
  have hlo : lowerOf s reqs ≠ [] := lowerOf_ne_nil hr0 hr0s
  obtain ⟨hseq, hseek⟩ := simulateCSCAN_up c s reqs hc hs0 hsc hreq hlo
  exact ⟨higherOf s reqs, lowerOf s reqs, higherOf_perm s reqs, higherOf_sorted s reqs,
         lowerOf_perm s reqs, lowerOf_sorted s reqs, hseq, hseek⟩

theorem claim_C3_witness :
    ∃ hi lo,
      List.Perm hi ([82, 170, 43, 140, 24, 16, 190].filter (fun r => (50 : Int) < r)) ∧
      List.Sorted (· ≤ ·) hi ∧
      List.Perm lo ([82, 170, 43, 140, 24, 16, 190].filter (fun r => r < (50 : Int))) ∧
      List.Sorted (· ≤ ·) lo ∧
      (simulateCSCAN 200 50 [82, 170, 43, 140, 24, 16, 190] true).sequence =
        50 :: hi ++ (if (50 :: hi).getLastD 0 = 200 - 1 then [] else [200 - 1]) ++ 0 :: lo ∧
      (simulateCSCAN 200 50 [82, 170, 43, 140, 24, 16, 190] true).seekDistance + (200 - 1) =
        pathSum (simulateCSCAN 200 50 [82, 170, 43, 140, 24, 16, 190] true).sequence :=
  claim_C3 200 50 [82, 170, 43, 140, 24, 16, 190] (by decide) (by decide) (by decide)
    (by decide) ⟨43, by decide, by decide⟩

/-- C4: for every validated disk workload, LOOK visits the start cylinder,
then the strictly-higher requests ascending followed by the strictly-lower
requests descending when moving up (mirrored when moving down), and its
seek distance is exactly the path sum of the visited sequence; on the
concrete scenario `cylinderCount = 200`, `start = 50`,
`requests = [82,170,43,140,24,16,190]`, direction up, the sequence is
`[50, 82, 140, 170, 190, 43, 24, 16]`. -/
theorem claim_C4 (c s : Int) (reqs : List Int) (hc : 0 < c) (hs0 : 0 ≤ s) (hsc : s < c)
    (hreq : ∀ r ∈ reqs, 0 ≤ r ∧ r < c) :
    (∃ hi lo, List.Perm hi (reqs.filter (fun r => s < r)) ∧ List.Sorted (· ≤ ·) hi ∧
       List.Perm lo (reqs.filter (fun r => r < s)) ∧
       List.Sorted (fun a b : Int => b ≤ a) lo ∧
       (simulateLOOK c s reqs true).sequence = s :: (hi ++ lo) ∧
       (simulateLOOK c s reqs true).seekDistance =
         pathSum (simulateLOOK c s reqs true).sequence) ∧
    (∃ lo hi, List.Perm lo (reqs.filter (fun r => r < s)) ∧
       List.Sorted (fun a b : Int => b ≤ a) lo ∧
       List.Perm hi (reqs.filter (fun r => s < r)) ∧ List.Sorted (· ≤ ·) hi ∧
       (simulateLOOK c s reqs false).sequence = s :: (lo ++ hi) ∧
       (simulateLOOK c s reqs false).seekDistance =
         pathSum (simulateLOOK c s reqs false).sequence) ∧
    (simulateLOOK 200 50 [82, 170, 43, 140, 24, 16, 190] true).sequence =
      [50, 82, 140, 170, 190, 43, 24, 16] := by
  refine ⟨⟨higherOf s reqs, (lowerOf s reqs).reverse, higherOf_perm s reqs,
           higherOf_sorted s reqs, (List.reverse_perm _).trans (lowerOf_perm s reqs),
           lowerOf_reverse_sorted s reqs, ?_, simulateLOOK_seek c s reqs true⟩,
          ⟨(lowerOf s reqs).reverse, higherOf s reqs,
           (List.reverse_perm _).trans (lowerOf_perm s reqs),
           lowerOf_reverse_sorted s reqs, higherOf_perm s reqs, higherOf_sorted s reqs,
           ?_, simulateLOOK_seek c s reqs false⟩, by decide⟩
  · simpa using simulateLOOK_seq c s reqs true
  · simpa using simulateLOOK_seq c s reqs false

theorem claim_C4_witness :
    (∃ hi lo,
       List.Perm hi ([82, 170, 43, 140, 24, 16, 190].filter (fun r => (50 : Int) < r)) ∧
       List.Sorted (· ≤ ·) hi ∧
       List.Perm lo ([82, 170, 43, 140, 24, 16, 190].filter (fun r => r < (50 : Int))) ∧
       List.Sorted (fun a b : Int => b ≤ a) lo ∧
       (simulateLOOK 200 50 [82, 170, 43, 140, 24, 16, 190] true).sequence = 50 :: (hi ++ lo) ∧
       (simulateLOOK 200 50 [82, 170, 43, 140, 24, 16, 190] true).seekDistance =
         pathSum (simulateLOOK 200 50 [82, 170, 43, 140, 24, 16, 190] true).sequence) ∧
    (∃ lo hi,
       List.Perm lo ([82, 170, 43, 140, 24, 16, 190].filter (fun r => r < (50 : Int))) ∧
       List.Sorted (fun a b : Int => b ≤ a) lo ∧
       List.Perm hi ([82, 170, 43, 140, 24, 16, 190].filter (fun r => (50 : Int) < r)) ∧
       List.Sorted (· ≤ ·) hi ∧
       (simulateLOOK 200 50 [82, 170, 43, 140, 24, 16, 190] false).sequence = 50 :: (lo ++ hi) ∧
       (simulateLOOK 200 50 [82, 170, 43, 140, 24, 16, 190] false).seekDistance =
         pathSum (simulateLOOK 200 50 [82, 170, 43, 140, 24, 16, 190] false).sequence) ∧
    (simulateLOOK 200 50 [82, 170, 43, 140, 24, 16, 190] true).sequence =
      [50, 82, 140, 170, 190, 43, 24, 16] :=
  claim_C4 200 50 [82, 170, 43, 140, 24, 16, 190] (by decide) (by decide) (by decide)
    (by decide)

/-- C8: for every validated disk workload and both directions, the start
cylinder is the head of the visited sequence of both LOOK and C-SCAN and
never reappears in its tail, and removing the requests equal to the start
cylinder leaves both results unchanged (they contribute nothing, in
particular nothing to the seek distance). -/
theorem claim_C8 (c s : Int) (reqs : List Int) (dir : Bool) (hc : 0 < c) (hs0 : 0 ≤ s)
    (hsc : s < c) (hreq : ∀ r ∈ reqs, 0 ≤ r ∧ r < c) :
    ((simulateLOOK c s reqs dir).sequence.head? = some s ∧
     s ∉ (simulateLOOK c s reqs dir).sequence.tail ∧
     simulateLOOK c s (reqs.filter (fun r => !(r == s))) dir = simulateLOOK c s reqs dir) ∧
    ((simulateCSCAN c s reqs dir).sequence.head? = some s ∧
     s ∉ (simulateCSCAN c s reqs dir).sequence.tail ∧
     simulateCSCAN c s (reqs.filter (fun r => !(r == s))) dir = simulateCSCAN c s reqs dir) := by
  constructor
  · -- LOOK
    cases dir with
    | true =>
      have hseq : (simulateLOOK c s reqs true).sequence =
          s :: (higherOf s reqs ++ (lowerOf s reqs).reverse) := by
        simpa using simulateLOOK_seq c s reqs true
      refine ⟨by rw [hseq]; rfl, ?_, simulateLOOK_filter_ne c s reqs true⟩
      rw [hseq, List.tail_cons]
      intro hmem
      rcases List.mem_append.mp hmem with h | h
      · have := (mem_higherOf h).2
        omega
      · have := (mem_lowerOf (List.mem_reverse.mp h)).2
        omega
    | false =>
      have hseq : (simulateLOOK c s reqs false).sequence =
          s :: ((lowerOf s reqs).reverse ++ higherOf s reqs) := by
        simpa using simulateLOOK_seq c s reqs false
      refine ⟨by rw [hseq]; rfl, ?_, simulateLOOK_filter_ne c s reqs false⟩
      rw [hseq, List.tail_cons]
      intro hmem
      rcases List.mem_append.mp hmem with h | h
      · have := (mem_lowerOf (List.mem_reverse.mp h)).2
        omega
      · have := (mem_higherOf h).2
        omega
  · -- C-SCAN
    cases dir with
    | true =>
      by_cases hlonil : lowerOf s reqs = []
      · have hseq := (simulateCSCAN_up_nil c s reqs hlonil).1
        refine ⟨by rw [hseq]; rfl, ?_, simulateCSCAN_filter_ne c s reqs true⟩
        rw [hseq, List.tail_cons]
        intro hmem
        have := (mem_higherOf hmem).2
        omega
      · obtain ⟨x, hx⟩ := List.exists_mem_of_ne_nil _ hlonil
        have hxlt := (mem_lowerOf hx).2
        have hx0 := (hreq _ (mem_lowerOf hx).1).1
        have hseq := (simulateCSCAN_up c s reqs hc hs0 hsc hreq hlonil).1
        refine ⟨by rw [hseq]; rfl, ?_, simulateCSCAN_filter_ne c s reqs true⟩
        rw [hseq]
        show s ∉ (higherOf s reqs ++ _) ++ 0 :: lowerOf s reqs
        intro hmem
        rcases List.mem_append.mp hmem with h | h
        · rcases List.mem_append.mp h with h1 | h1
          · have := (mem_higherOf h1).2
            omega
          · by_cases hcond : (s :: higherOf s reqs).getLastD 0 = c - 1
            · rw [if_pos hcond] at h1
              simp at h1
            · rw [if_neg hcond] at h1
              have hseq1 : s = c - 1 := by simpa using h1
              have h2 := lastHigher_ge s reqs
              have h3 := lastHigher_le hsc hreq
              omega
        · rcases List.mem_cons.mp h with h1 | h1
          · omega
          · have := (mem_lowerOf h1).2
            omega
    | false =>
      by_cases hhinil : higherOf s reqs = []
      · have hseq := simulateCSCAN_down_nil c s reqs hhinil
        refine ⟨by rw [hseq]; rfl, ?_, simulateCSCAN_filter_ne c s reqs false⟩
        rw [hseq, List.tail_cons]
        intro hmem
        have := (mem_lowerOf (List.mem_reverse.mp hmem)).2
        omega
      · obtain ⟨x, hx⟩ := List.exists_mem_of_ne_nil _ hhinil
        have hxgt := (mem_higherOf hx).2
        have hxc := (hreq _ (mem_higherOf hx).1).2
        have hseq := simulateCSCAN_down_seq c s reqs hhinil
        refine ⟨by rw [hseq]; rfl, ?_, simulateCSCAN_filter_ne c s reqs false⟩
        rw [hseq]
        show s ∉ ((lowerOf s reqs).reverse ++ _) ++ (c - 1) :: (higherOf s reqs).reverse
        intro hmem
        rcases List.mem_append.mp hmem with h | h
        · rcases List.mem_append.mp h with h1 | h1
          · have := (mem_lowerOf (List.mem_reverse.mp h1)).2
            omega
          · by_cases hcond : 0 < (s :: (lowerOf s reqs).reverse).getLastD 0
            · rw [if_pos hcond] at h1
              have hs0' : s = 0 := by simpa using h1
              have h2 := lastLower_le s reqs
              omega
            · rw [if_neg hcond] at h1
              simp at h1
        · rcases List.mem_cons.mp h with h1 | h1
          · omega
          · have := (mem_higherOf (List.mem_reverse.mp h1)).2
            omega

theorem claim_C8_witness :
    ((simulateLOOK 200 50 [82, 170, 43, 140, 24, 16, 190] true).sequence.head? = some 50 ∧
     (50 : Int) ∉ (simulateLOOK 200 50 [82, 170, 43, 140, 24, 16, 190] true).sequence.tail ∧
     simulateLOOK 200 50 ([82, 170, 43, 140, 24, 16, 190].filter (fun r => !(r == (50 : Int)))) true =
       simulateLOOK 200 50 [82, 170, 43, 140, 24, 16, 190] true) ∧
    ((simulateCSCAN 200 50 [82, 170, 43, 140, 24, 16, 190] true).sequence.head? = some 50 ∧
     (50 : Int) ∉ (simulateCSCAN 200 50 [82, 170, 43, 140, 24, 16, 190] true).sequence.tail ∧
     simulateCSCAN 200 50 ([82, 170, 43, 140, 24, 16, 190].filter (fun r => !(r == (50 : Int)))) true =
       simulateCSCAN 200 50 [82, 170, 43, 140, 24, 16, 190] true) :=
  claim_C8 200 50 [82, 170, 43, 140, 24, 16, 190] true (by decide) (by decide) (by decide)
    (by decide)

/-- Fuel monotonicity of the clock sweep: once the sweep terminates with a
result, additional fuel does not change it. -/
theorem clockSweepAux_mono (n startP : Nat) : ∀ (fuel d : Nat) (bits : List Nat)
    (p lc : Nat) (rf : Bool) (r : SweepOut),
    clockSweepAux n startP fuel bits p lc rf = some r →
    clockSweepAux n startP (fuel + d) bits p lc rf = some r := by
  intro fuel
  induction fuel with
  | zero =>
    intro d bits p lc rf r h
    simp [clockSweepAux] at h
  | succ fuel ih =>
    intro d bits p lc rf r h
    rw [show fuel + 1 + d = (fuel + d) + 1 by ring]
    by_cases h0 : bits.getD p 1 = 0
    · rw [clockSweepAux_found h0] at h ⊢
      exact h
    · by_cases hw : (p + 1) % n = startP
      · by_cases hlc : lc + 1 = 1
        · have hlc0 : lc = 0 := by omega
          subst hlc0
          rw [clockSweepAux_wrapFirst h0 hw] at h ⊢
          exact ih d _ _ _ _ _ h
        · rw [clockSweepAux, if_neg h0, if_pos hw, if_neg hlc] at h ⊢
          exact h
      · rw [clockSweepAux_second h0 hw] at h ⊢
        exact ih d _ _ _ _ _ h

/-- C5 (counterexample to the claim as stated): `validateMemoryInput`
accepts the reference string `"1.5"` even though its only token does not
denote an integer — the code checks only `isNaN` and `< 0`, never
integrality. -/
theorem claim_C5_counterexample :
    (validateMemoryInput "2" "1.5").valid = true ∧
    (validateMemoryInput "2" "1.5").refArray = some [⟨false, 15, 1⟩] ∧
    ∃ j, jsNumber "1.5".data = some j ∧ 0 ≤ j.toRat ∧ ¬∃ m : ℤ, j.toRat = (m : ℚ) := by
  refine ⟨rfl, rfl, ⟨false, 15, 1⟩, rfl, ?_, ?_⟩
  · rw [show (⟨false, 15, 1⟩ : JsNum).toRat = 3 / 2 by norm_num [JsNum.toRat]]
    norm_num
  · rintro ⟨m, hm⟩
    rw [show (⟨false, 15, 1⟩ : JsNum).toRat = 3 / 2 by norm_num [JsNum.toRat]] at hm
    have hden : ((3 : ℚ) / 2).den = 1 := by
      rw [hm]
      exact Rat.den_intCast m
    norm_num at hden

/-- C5 (amended): `validateMemoryInput` succeeds only when the frame-count
text `parseInt`s to a positive integer and every whitespace-separated
reference token parses under `Number` to a non-negative value (integrality
is not checked); it rejects frames `"0"`, `"-5"`, `"abc"`, an empty
reference string, and `"1 -2 3"`, each with the specific message of its
failure class. -/
theorem claim_C5 :
    (∀ f r, (validateMemoryInput f r).valid = true →
       (∃ k, jsParseInt f = some k ∧ 0 < k) ∧ trimChars r.data ≠ [] ∧
       ∀ t ∈ tokensWs (trimChars r.data), ∃ j, jsNumber t = some j ∧ 0 ≤ j.toRat) ∧
    (∀ r, validateMemoryInput "0" r =
       ⟨false, "Number of frames must be a positive integer", none, none⟩) ∧
    (∀ r, validateMemoryInput "-5" r =
       ⟨false, "Number of frames must be a positive integer", none, none⟩) ∧
    (∀ r, validateMemoryInput "abc" r =
       ⟨false, "Number of frames must be a positive integer", none, none⟩) ∧
    validateMemoryInput "3" "" = ⟨false, "Reference string is required", none, none⟩ ∧
    validateMemoryInput "3" "1 -2 3" =
      ⟨false, "Reference string must contain non-negative integers", none, none⟩ :=
  ⟨validateMemoryInput_only_if, fun _ => rfl, fun _ => rfl, fun _ => rfl, rfl, rfl⟩

theorem claim_C5_witness :
    (validateMemoryInput "3" "1 2").valid = true ∧
    ((∃ k, jsParseInt "3" = some k ∧ 0 < k) ∧ trimChars "1 2".data ≠ [] ∧
     ∀ t ∈ tokensWs (trimChars "1 2".data), ∃ j, jsNumber t = some j ∧ 0 ≤ j.toRat) :=
  ⟨rfl, claim_C5.1 "3" "1 2" rfl⟩

/-- C6: in `simulateARB` (the clock variant), a frame's reference bit is
`1` immediately after that frame is loaded or hit, and a step's `resetBits`
flag is set if and only if the step is a fault on a full frame table all of
whose reference bits were `1` at the start of that fault's sweep. -/
theorem claim_C6 (frameCount : Nat) (refString : List Nat) (hfc : 1 ≤ frameCount) :
    ∃ res, simulateARB frameCount refString = some res ∧
      ∀ st ∈ res.steps,
        (st.isFault = false → ∃ j, jsIndexOf st.frames st.reference = some j ∧
           (st.refBitsAfter.getD []).getD j 0 = 1) ∧
        (st.isFault = true → ∃ j : Nat, st.replacedFrame = some (j : Int) ∧
           (st.refBitsAfter.getD []).getD j 0 = 1) ∧
        (st.resetBits = some true ↔
           st.isFault = true ∧ (-1 : Int) ∉ st.frames ∧ ∀ b ∈ st.refBits.getD [], b = 1) := by
  obtain ⟨res, h1, -, hsteps⟩ := simulateARB_spec (show 0 < frameCount by omega) refString
  exact ⟨res, h1, fun st hst => (hsteps st hst).1⟩

theorem claim_C6_witness :
    ∃ res, simulateARB 3 [7, 0, 1, 2, 0, 3] = some res ∧
      ∀ st ∈ res.steps,
        (st.isFault = false → ∃ j, jsIndexOf st.frames st.reference = some j ∧
           (st.refBitsAfter.getD []).getD j 0 = 1) ∧
        (st.isFault = true → ∃ j : Nat, st.replacedFrame = some (j : Int) ∧
           (st.refBitsAfter.getD []).getD j 0 = 1) ∧
        (st.resetBits = some true ↔
           st.isFault = true ∧ (-1 : Int) ∉ st.frames ∧ ∀ b ∈ st.refBits.getD [], b = 1) :=
  claim_C6 3 [7, 0, 1, 2, 0, 3] (by decide)

/-- C7: for every `frameCount ≥ 1`, the clock victim sweep finds a victim
no later than the first probe after one full revolution (fuel
`frameCount + 1` probes suffice) and never through the `loopCount > 1`
forced-eviction branch, and `simulateARB` terminates with a result on every
reference sequence. -/
theorem claim_C7 (frameCount : Nat) (refString : List Nat) (hfc : 1 ≤ frameCount) :
    (∀ bits p, bits.length = frameCount → p < frameCount →
       (∀ b ∈ bits, b = 0 ∨ b = 1) →
       ∃ r, clockSweepAux frameCount p (frameCount + 1) bits p 0 false = some r ∧
         r.forced = false ∧ clockSweep frameCount bits p = some r) ∧
    ∃ res, simulateARB frameCount refString = some res := by
  constructor
  · intro bits p hlen hp hb
    obtain ⟨r, hr, hforced, -, -, -, -, -, -⟩ :=
      clockSweepAux_spec frameCount bits p (frameCount + 1) (by omega) hlen hp hb (le_refl _)
    refine ⟨r, hr, hforced, ?_⟩
    have := clockSweepAux_mono frameCount p (frameCount + 1) (frameCount + 1)
      bits p 0 false r hr
    rw [clockSweep, show 2 * frameCount + 2 = (frameCount + 1) + (frameCount + 1) by ring]
    exact this
  · obtain ⟨res, h1, -⟩ := simulateARB_spec (show 0 < frameCount by omega) refString
    exact ⟨res, h1⟩

theorem claim_C7_witness :
    (∀ bits p, bits.length = 3 → p < 3 → (∀ b ∈ bits, b = 0 ∨ b = 1) →
       ∃ r, clockSweepAux 3 p (3 + 1) bits p 0 false = some r ∧
         r.forced = false ∧ clockSweep 3 bits p = some r) ∧
    ∃ res, simulateARB 3 [7, 0, 1, 2, 0, 3] = some res :=
  claim_C7 3 [7, 0, 1, 2, 0, 3] (by decide)

/-- C9: `validateDiskInput` rejects a head position at or above the
cylinder count, and rejects any request-queue value outside
`[0, cylinderCount - 1]`, in each case with a message naming the valid
range `0` to `cylinderCount - 1`. -/
theorem claim_C9 :
    (∀ cs hs qs : String, ∀ c h : Int,
       jsParseInt cs = some c → 0 < c → jsParseInt hs = some h → 0 ≤ h → c ≤ h →
       validateDiskInput cs hs qs =
         ⟨false, "Head position must be less than total cylinders (0-"
                   ++ toString (c - 1) ++ ")", none, none, none⟩) ∧
    (∀ cs hs qs : String, ∀ c h : Int,
       jsParseInt cs = some c → 0 < c → jsParseInt hs = some h → 0 ≤ h → h < c →
       trimChars qs.data ≠ [] →
       (∀ o ∈ (splitOn (· == ',') (trimChars qs.data)).map parseIntChars, o.isSome = true) →
       (∃ v ∈ ((splitOn (· == ',') (trimChars qs.data)).map parseIntChars).map
           (fun o => o.getD 0), v < 0 ∨ c ≤ v) →
       validateDiskInput cs hs qs =
         ⟨false, "Request queue must contain integers between 0 and "
                   ++ toString (c - 1), none, none, none⟩) := by
  constructor
  · intro cs hs qs c h hc hcpos hh hh0 hch
    simp [validateDiskInput, hc, hh, show ¬(c ≤ 0) by omega, show ¬(h < 0) by omega, hch]
  · intro cs hs qs c h hc hcpos hh hh0 hhc htrim hall hout
    have h1 : ¬(c ≤ h) := by omega
    have h2 : (trimChars qs.data).isEmpty = false := isEmpty_false_iff_char.mpr htrim
    have h3 : ((splitOn (· == ',') (trimChars qs.data)).map parseIntChars).any
        Option.isNone = false := by
      rw [List.any_eq_false]
      intro o ho
      have := hall o ho
      cases o with
      | none => simp at this
      | some v => simp
    have h4 : (((splitOn (· == ',') (trimChars qs.data)).map parseIntChars).map
        (fun o => o.getD 0)).any (fun r => r < 0 || c ≤ r) = true := by
      rw [List.any_eq_true]
      obtain ⟨v, hv, hvc⟩ := hout
      refine ⟨v, hv, ?_⟩
      rcases hvc with h | h <;> simp [h]
    simp [validateDiskInput, hc, hh, show ¬(c ≤ 0) by omega, show ¬(h < 0) by omega,
          h1, h2, h3, h4]
    obtain ⟨v, hv, hvc⟩ := hout
    rw [List.map_map] at hv
    obtain ⟨x, hx, hxv⟩ := List.mem_map.mp hv
    have hxv' : (parseIntChars x).getD 0 = v := by simpa using hxv
    refine ⟨x, hx, fun hge => ?_⟩
    rw [hxv'] at hge ⊢
    rcases hvc with hcase | hcase <;> omega

theorem claim_C9_witness :
    validateDiskInput "200" "300" "10" =
      ⟨false, "Head position must be less than total cylinders (0-"
                ++ toString ((200 : Int) - 1) ++ ")", none, none, none⟩ ∧
    validateDiskInput "200" "50" "82,250" =
      ⟨false, "Request queue must contain integers between 0 and "
                ++ toString ((200 : Int) - 1), none, none, none⟩ :=
  ⟨claim_C9.1 "200" "300" "10" 200 300 rfl (by decide) rfl (by decide) (by decide),
   claim_C9.2 "200" "50" "82,250" 200 50 rfl (by decide) rfl (by decide) (by decide)
     (by decide) (by decide) ⟨250, by decide, by decide⟩⟩

/-- C10: for every `frameCount ≥ 1` and every sequence of non-negative
references, each step of `simulateLRU` and `simulateARB` leaves the frame
table unchanged on a hit and rewrites exactly the replaced frame's slot on
a fault. -/
theorem claim_C10 (frameCount : Nat) (refString : List Nat) (hfc : 1 ≤ frameCount) :
    (∀ st ∈ (simulateLRU frameCount refString).steps, framesEffect st) ∧
    ∃ res, simulateARB frameCount refString = some res ∧
      ∀ st ∈ res.steps, framesEffect st := by
  constructor
  · intro st hst
    exact lruRunAux_effect (show 0 < frameCount by omega) refString (lruInit frameCount)
      (lruInv_init frameCount) st hst
  · obtain ⟨res, h1, -, hsteps⟩ := simulateARB_spec (show 0 < frameCount by omega) refString
    exact ⟨res, h1, fun st hst => (hsteps st hst).2⟩

theorem claim_C10_witness :
    (∀ st ∈ (simulateLRU 3 [7, 0, 1, 2, 0, 3]).steps, framesEffect st) ∧
    ∃ res, simulateARB 3 [7, 0, 1, 2, 0, 3] = some res ∧
      ∀ st ∈ res.steps, framesEffect st :=
  claim_C10 3 [7, 0, 1, 2, 0, 3] (by decide)

end OSSim
